import Mathlib

/-!
Verification of the bim text editor's editing engine (src/apps/bim.c).

This file gives a shallow embedding, in Lean 4, of the parts of bim's
editing engine that the specification's claims are about:

* the tab-width recomputation pass (`recalculate_tabs`, bim.c:2506);
* smart-case search matching (`smart_case` bim.c:6163, `search_matches`
  bim.c:5125);
* the line-array shift performed by `remove_line` (bim.c:2672), modelled
  on the raw pointer array so that the exact `memmove` length from the
  source, including its overshoot, is represented;
* the incremental syntax-state cascade (`recalculate_syntax`, bim.c:2471),
  with the per-language lexer abstracted as a function from line content
  and entry state to exit state (lexers are plug-in collaborators);
* the history journal and the undo machinery (`HIST_APPEND` bim.c:2547,
  `line_insert`/`line_delete`/`line_replace`/`add_line`/`remove_line`/
  `replace_line`/`split_line`/`merge_lines`, `set_history_break`,
  `undo_history` bim.c:6707, `redo_history` bim.c:6833, `set_modified`
  bim.c:4074, the save epilogue of `write_file` bim.c:4820,
  `leave_insert` bim.c:5113, and the cursor clamp at the top of
  `place_cursor_actual` bim.c:4205);
* forward substring search (`find_match` bim.c:6180, `search_next`
  bim.c:6422), plus an instrumented variant that records every cell
  index the C code reads;
* the bracket matcher (`find_matching_paren` bim.c:6469 and the
  `paren_pairs` table bim.c:4143).

Modelling conventions.  Machine `int`s are `Int` where a value can go
negative in the source (cursor fields, scan columns) and `Nat` where the
source only ever stores non-negative values (record fields, list
indices); no arithmetic here can overflow 32 bits on the inputs the
theorems quantify over.  A C array together with its live length
`actual` is a Lean `List` holding exactly the live cells; reads the C
code performs outside the live range return a default cell (codepoint
0), and the instrumented search model makes every such read explicit.
Null-pointer / sentinel results (`out_line = -1`) are `Option`.  Heap
identity of history records, which `env->history != env->last_save_history`
compares, is modelled by tagging each record with a serial number drawn
from a monotone counter, so a freshly appended record is never identical
to an older one (malloc'ed records are assumed not to alias freed ones).
Fields of the C structs that only affect rendering (rev_status,
display widths inside the history machine, preferred_column, viewport
offsets) are omitted where no claim mentions them.
-/

namespace Bim

/-! ## Tab recomputation (bim.c: recalculate_tabs) -/

/-- One display cell for the tab model: codepoint and display width
(`char_t` has `codepoint`, `flags`, `display_width`; flags are not
read by `recalculate_tabs`). -/
structure TCell where
  codepoint : Nat
  display_width : Nat
deriving DecidableEq, Repr, Inhabited

/-- The loop body of `recalculate_tabs`: walk the cells left to right,
`j` accumulating display widths; a tab cell (codepoint 9) at
accumulated column `j` gets width `tabstop - (j % tabstop)`.  The C loop
mutates in place, so the width added to `j` for a tab is the updated
width. -/
def recalc_tabs_go (tabstop : Nat) : List TCell → Nat → List TCell
  | [], _ => []
  | c :: rest, j =>
    let c1 := if c.codepoint = 9 then { c with display_width := tabstop - j % tabstop } else c
    c1 :: recalc_tabs_go tabstop rest (j + c1.display_width)

/-- `recalculate_tabs` on a line, outside of `loading` (the function
returns immediately when `env->loading` is set). -/
def recalculate_tabs (tabstop : Nat) (l : List TCell) : List TCell :=
  recalc_tabs_go tabstop l 0

/-! ## Smart case (bim.c: smart_case, search_matches) -/

/-- C `tolower` restricted to the ASCII uppercase range, which is what
it does on codepoints in the C locale. -/
def tolower (c : Nat) : Nat := if 65 ≤ c ∧ c ≤ 90 then c + 32 else c

/-- `search_matches(a, b, mode)`: mode 0 compares exactly, mode 1
compares after `tolower`, anything else is no match. -/
def search_matches (a b : Nat) (mode : Nat) : Bool :=
  if mode = 0 then a == b
  else if mode = 1 then tolower a == tolower b
  else false

/-- `smart_case(str)`: returns 1 (case-insensitive mode) when the
global smart-case option is on and no codepoint of the needle is
changed by `tolower`; else 0.  `cfg` is `global_config.smart_case`
(default 1). -/
def smart_case (cfg : Bool) (str : List Nat) : Nat :=
  if !cfg then 0
  else if str.all (fun c => tolower c == c) then 1 else 0

/-! ## remove_line's pointer-array shift (bim.c:2672)

The buffer's `lines` is a `line_t **` with `line_avail ≥ line_count`
allocated slots; slots at and beyond `line_count` hold junk.  To model
the `memmove` with the exact length the C source computes
(`line_count - (offset - 1)` elements, one more than the live tail), the
array is a total function `Nat → Option α`: the live view is its
restriction to `[0, line_count)` and every other index is arbitrary
junk, universally quantified in the theorem. -/

/-- The array surgery `remove_line` performs when `line_count ≥ 2`
(the single-line branch clears the line instead; the history snapshot
does not touch the array):

    if (offset < line_count - 1) {
        memmove(&lines[offset], &lines[offset+1],
                sizeof(line_t*) * (line_count - (offset - 1)));
        lines[line_count-1] = NULL;
    }
    line_count -= 1;

The memmove writes indices `offset ≤ i ≤ line_count` with the value at
`i+1` (note the upper end reaches one past the live range), then index
`line_count - 1` is nulled.  The function returns the new array; the
caller pairs it with the decremented count. -/
def remove_line_shift (f : Nat → Option α) (line_count offset : Nat) : Nat → Option α :=
  fun i =>
    if offset + 1 < line_count then
      if i = line_count - 1 then none
      else if offset ≤ i ∧ i ≤ line_count then f (i + 1)
      else f i
    else f i

/-- The live view of a pointer array: its first `n` slots. -/
def liveView (f : Nat → Option α) (n : Nat) : List (Option α) :=
  (List.range n).map f

/-- A concrete line used to instantiate the tab theorem: tab, letter,
tab, with stale widths. -/
def tabsExample : List TCell := [⟨9, 0⟩, ⟨97, 1⟩, ⟨9, 7⟩]

/-! ## Incremental syntax cascade (bim.c: recalculate_syntax)

A buffer line is a pair `(content, istate)`; `content` is the cell data
(abstract here: the cascade never changes it) and `istate` the syntax
state entering the line.  The plug-in lexer is abstracted as
`lex : α → Int → Int`, mapping line content and entry state to the
exit state for the next line: in C this is the first nonzero value of
the `calculate` loop (`while (1) { state.state = calculate(&state); if
(state.state != 0) ... break; }`), assumed to terminate per line.  The
painting of cell flags that `calculate` performs on the way is invisible
at this granularity (it never feeds back into states).  The model is the
non-`loading` path. -/

/-- `recalculate_syntax` on line `k` with explicit fuel (the C recursion
advances `k` by one each step and stops before `line_count`, so
`L.length - k` steps suffice):

1. run the lexer on line `k` seeded from `lines[k].istate`, obtaining
   exit state `ex`;
2. if line `k+1` exists and stores a different `istate`, update it to
   `ex` and recompute line `k+1`; otherwise stop. -/
def recalc_syn_go (lex : α → Int → Int) (dflt : α) : Nat → List (α × Int) → Nat → List (α × Int)
  | 0, L, _ => L
  | fuel + 1, L, k =>
    if k + 1 < L.length ∧
        (L.getD (k + 1) (dflt, 0)).2 ≠ lex (L.getD k (dflt, 0)).1 (L.getD k (dflt, 0)).2 then
      recalc_syn_go lex dflt fuel
        (L.set (k + 1)
          ((L.getD (k + 1) (dflt, 0)).1, lex (L.getD k (dflt, 0)).1 (L.getD k (dflt, 0)).2))
        (k + 1)
    else L

/-- `recalculate_syntax(lines[k], k)` outside `loading`. -/
def recalculate_syn (lex : α → Int → Int) (dflt : α) (L : List (α × Int)) (k : Nat) :
    List (α × Int) :=
  recalc_syn_go lex dflt (L.length - k) L k

/-- The istate invariant for the edge leaving line `j`: the stored
incoming state of line `j+1` equals the lexer's exit state on line `j`
(spec invariant 4 / the fixed point of the cascade). -/
def syn_edge_good (lex : α → Int → Int) (dflt : α) (L : List (α × Int)) (j : Nat) : Prop :=
  j + 1 < L.length → (L.getD (j + 1) (dflt, 0)).2 = lex (L.getD j (dflt, 0)).1 (L.getD j (dflt, 0)).2

/-- Concrete lexer for instantiating the cascade theorem: exit state is
content plus entry state. -/
def synCalcEx : Int → Int → Int := fun c s => c + s

/-- Concrete line list for the cascade theorem's witness; only the edge
out of line 0 is stale. -/
def synLinesEx : List (Int × Int) := [(5, 0), (0, 3), (0, 3)]

/-! ## History journal and undo/redo (bim.c:2547-2905, 6707-6960)

The machine state carries what the claims mention: the line buffer (as
codepoint lists: syntax flags and display widths do not feed back into
the journal, and the buffers in these claims run with `env->syntax`
unset so `recalculate_syntax` only clears flags), the 1-based cursor,
the mode, the journal, and the modified tracking.  The journal is the
list of records after the `Sentinel`, each tagged with a serial id
standing for its heap address; `hpos` is the current position
(`env->history` points at record `hpos - 1`, or at the sentinel when
`hpos = 0`).  `lastSaveId` is `env->last_save_history` (the sentinel has
id 0).  `loading` is `env->loading`. -/

/-- One history record (`history_t`, minus the chain pointers).
`remove_line`/`replace_line` snapshots are value copies of the line. -/
inductive HistoryRecord where
  | insert (lineno offset codepoint : Nat)
  | delete (lineno offset old_codepoint : Nat)
  | replace (lineno offset codepoint old_codepoint : Nat)
  | remove_line (lineno : Nat) (old_contents : List Nat)
  | add_line (lineno : Nat)
  | replace_line (lineno : Nat) (old_contents contents : List Nat)
  | split_line (lineno split : Nat)
  | merge_lines (lineno split : Nat)
  | brk
deriving DecidableEq, Repr

/-- The editor state for the history machine (the relevant fields of
`buffer_t`). -/
structure EditorState where
  lines : List (List Nat)
  line_no : Int
  col_no : Int
  mode : Nat
  journal : List (Nat × HistoryRecord)
  hpos : Nat
  nextId : Nat
  lastSaveId : Nat
  modified : Bool
  loading : Bool
deriving DecidableEq, Repr

/-- The record at journal index `i` (0-based; index `hpos - 1` is the
current record). -/
def recAt (s : EditorState) (i : Nat) : HistoryRecord :=
  (s.journal.getD i (0, HistoryRecord.brk)).2

/-- The serial id at journal index `i`. -/
def idAt (s : EditorState) (i : Nat) : Nat :=
  (s.journal.getD i (0, HistoryRecord.brk)).1

/-- The id of the record `env->history` points at (0 = the sentinel). -/
def currentId (s : EditorState) : Nat :=
  if s.hpos = 0 then 0 else idAt s (s.hpos - 1)

/-- `HIST_APPEND(e)`: truncate the divergent branch after the current
position (`recursive_history_free`) and append a fresh record. -/
def hist_append (s : EditorState) (r : HistoryRecord) : EditorState :=
  { s with journal := s.journal.take s.hpos ++ [(s.nextId, r)],
           hpos := s.hpos + 1, nextId := s.nextId + 1 }

/-- Apply `f` to line `i` of the buffer (C mutates `lines[i]` in
place). -/
def modifyLine (L : List (List Nat)) (i : Nat) (f : List Nat → List Nat) : List (List Nat) :=
  L.set i (f (L.getD i []))

/-- `line_insert(line, c, offset, lineno)`: record
`HISTORY_INSERT(lineno, offset, c)` unless loading, then shift the
cells at `offset` and beyond right and place `c` at `offset`. -/
def line_insert (s : EditorState) (c offset lineno : Nat) : EditorState :=
  let s1 := if s.loading then s else hist_append s (.insert lineno offset c)
  { s1 with lines := modifyLine s1.lines lineno (List.insertIdx offset c) }

/-- `line_delete(line, offset, lineno)`: nothing at offset 0; else
record `HISTORY_DELETE(lineno, offset, text[offset-1])` unless loading
and erase the cell at index `offset - 1`.  (The C behaviour at
`offset > actual` — decrementing `actual` without shifting — is outside
the valid-offset hypotheses of every theorem below and is not
modelled.) -/
def line_delete (s : EditorState) (offset lineno : Nat) : EditorState :=
  if offset = 0 then s
  else
    let s1 := if s.loading then s
              else hist_append s (.delete lineno offset ((s.lines.getD lineno []).getD (offset - 1) 0))
    { s1 with lines := modifyLine s1.lines lineno (fun l => l.eraseIdx (offset - 1)) }

/-- `line_replace(line, c, offset, lineno)`. -/
def line_replace (s : EditorState) (c offset lineno : Nat) : EditorState :=
  let s1 := if s.loading then s
            else hist_append s (.replace lineno offset c ((s.lines.getD lineno []).getD offset 0))
  { s1 with lines := modifyLine s1.lines lineno (fun l => l.set offset c) }

/-- The `while (lines[offset]->actual > 0) line_delete(lines[offset],
lines[offset]->actual, offset);` loop `remove_line` runs on a one-line
buffer, with fuel (the line length strictly decreases). -/
def clear_line_go (offset : Nat) : Nat → EditorState → EditorState
  | 0, s => s
  | fuel + 1, s =>
    if (s.lines.getD offset []).length = 0 then s
    else clear_line_go offset fuel (line_delete s (s.lines.getD offset []).length offset)

/-- `remove_line(lines, offset)`: on a one-line buffer, clear the line
cell by cell; otherwise record `HISTORY_REMOVE_LINE` with a snapshot
and drop the line.  The list-level effect of the pointer shift (erase
the slot, shift the tail up) is exactly the live view established by
`C5_remove_line_erases` for the source's over-long memmove. -/
def remove_line (s : EditorState) (offset : Nat) : EditorState :=
  if s.lines.length = 1 then clear_line_go offset (s.lines.getD offset []).length s
  else
    let s1 := if s.loading then s
              else hist_append s (.remove_line offset (s.lines.getD offset []))
    { s1 with lines := s1.lines.eraseIdx offset }

/-- `add_line(lines, offset)`: invalid offsets (`offset > line_count`)
return unchanged before recording; else record `HISTORY_ADD_LINE` and
splice in a fresh empty line at `offset`. -/
def add_line (s : EditorState) (offset : Nat) : EditorState :=
  if s.lines.length < offset then s
  else
    let s1 := if s.loading then s else hist_append s (.add_line offset)
    { s1 with lines := s1.lines.insertIdx offset [] }

/-- `replace_line(lines, offset, replacement)`: record
`HISTORY_REPLACE_LINE` with both snapshots, then copy the replacement
over the slot. -/
def replace_line (s : EditorState) (offset : Nat) (repl : List Nat) : EditorState :=
  let s1 := if s.loading then s
            else hist_append s (.replace_line offset (s.lines.getD offset []) repl)
  { s1 with lines := s1.lines.set offset repl }

/-- `split_line(lines, line, split)`: splitting at column 0 just adds a
blank line before (and records `HISTORY_ADD_LINE`); else record
`HISTORY_SPLIT_LINE`, keep the first `split` cells in `line` and move
the rest to a new line at `line + 1`. -/
def split_line (s : EditorState) (line split : Nat) : EditorState :=
  if split = 0 then add_line s line
  else
    let s1 := if s.loading then s else hist_append s (.split_line line split)
    let newLines := (s1.lines.set line ((s1.lines.getD line []).take split)).insertIdx (line + 1)
      ((s1.lines.getD line []).drop split)
    { s1 with lines := newLines }

/-- `merge_lines(lines, lineb)`: record `HISTORY_MERGE_LINES(lineb,
linea->actual)`, append line `lineb`'s cells to line `lineb - 1`, and
drop slot `lineb` (the same over-long memmove shape as `remove_line`;
list-level live view as established for C5). -/
def merge_lines (s : EditorState) (lineb : Nat) : EditorState :=
  let s1 := if s.loading then s
            else hist_append s (.merge_lines lineb (s.lines.getD (lineb - 1) []).length)
  let newLines := (s1.lines.set (lineb - 1)
    ((s1.lines.getD (lineb - 1) []) ++ (s1.lines.getD lineb []))).eraseIdx lineb
  { s1 with lines := newLines }

/-- `set_modified()` (the early return when already modified has the
same effect). -/
def set_modified (s : EditorState) : EditorState := { s with modified := true }

/-- `set_history_break()`: append a `BREAK` unless the current record
is already a `BREAK` or the sentinel. -/
def set_history_break (s : EditorState) : EditorState :=
  if s.hpos = 0 then s
  else if recAt s (s.hpos - 1) = HistoryRecord.brk then s
  else hist_append s .brk

/-- One editor-level operation: the eight mutation primitives (each
dispatcher path follows the mutation with `set_modified()`), an
explicit history break, and a save (the epilogue of `write_file`:
`env->modified = 0; env->last_save_history = env->history;`). -/
inductive EditOp where
  | ins (lineno offset c : Nat)
  | del (lineno offset : Nat)
  | rep (lineno offset c : Nat)
  | addL (lineno : Nat)
  | removeL (lineno : Nat)
  | replaceL (lineno : Nat) (contents : List Nat)
  | splitL (lineno split : Nat)
  | mergeL (lineb : Nat)
  | brk
  | save
deriving DecidableEq, Repr

/-- Apply one operation. -/
def apply_op (s : EditorState) : EditOp → EditorState
  | .ins lineno offset c => set_modified (line_insert s c offset lineno)
  | .del lineno offset => set_modified (line_delete s offset lineno)
  | .rep lineno offset c => set_modified (line_replace s c offset lineno)
  | .addL lineno => set_modified (add_line s lineno)
  | .removeL lineno => set_modified (remove_line s lineno)
  | .replaceL lineno contents => set_modified (replace_line s lineno contents)
  | .splitL lineno split => set_modified (split_line s lineno split)
  | .mergeL lineb => set_modified (merge_lines s lineb)
  | .brk => set_history_break s
  | .save => { s with modified := false, lastSaveId := currentId s }

/-- The in-range conditions under which the dispatcher issues each
primitive (cursor positions are valid, so offsets fall inside the
addressed line and line numbers inside the buffer). -/
def op_validb (s : EditorState) : EditOp → Bool
  | .ins lineno offset _ =>
    decide (lineno < s.lines.length) && decide (offset ≤ (s.lines.getD lineno []).length)
  | .del lineno offset =>
    decide (lineno < s.lines.length) && decide (1 ≤ offset) &&
      decide (offset ≤ (s.lines.getD lineno []).length)
  | .rep lineno offset _ =>
    decide (lineno < s.lines.length) && decide (offset < (s.lines.getD lineno []).length)
  | .addL lineno => decide (lineno ≤ s.lines.length)
  | .removeL lineno => decide (lineno < s.lines.length)
  | .replaceL lineno _ => decide (lineno < s.lines.length)
  | .splitL lineno split =>
    decide (lineno < s.lines.length) && decide (split ≤ (s.lines.getD lineno []).length)
  | .mergeL lineb => decide (1 ≤ lineb) && decide (lineb < s.lines.length)
  | .brk => true
  | .save => true

/-- A sequence of operations, each valid in the state it runs in. -/
def valid_seqb (s : EditorState) : List EditOp → Bool
  | [] => true
  | op :: ops => op_validb s op && valid_seqb (apply_op s op) ops

/-- Apply a sequence of operations. -/
def apply_seq (s : EditorState) (ops : List EditOp) : EditorState :=
  ops.foldl apply_op s

/-- The switch of `undo_history` for one record: apply the inverse
primitive (during undo `env->loading = 1`, so no records are appended)
and set the cursor from the record's fields, exactly as in the source.
Snapshot widths (`codepoint_width`) are not carried since cells are
codepoints here. -/
def undo_apply (s : EditorState) : HistoryRecord → EditorState
  | .insert lineno offset _ =>
    let s1 := line_delete s (offset + 1) lineno
    { s1 with line_no := (lineno : Int) + 1, col_no := (offset : Int) + 1 }
  | .delete lineno offset old =>
    let s1 := line_insert s old (offset - 1) lineno
    { s1 with line_no := (lineno : Int) + 1, col_no := (offset : Int) + 2 }
  | .replace lineno offset _ old =>
    let s1 := line_replace s old offset lineno
    { s1 with line_no := (lineno : Int) + 1, col_no := (offset : Int) + 1 }
  | .remove_line lineno old =>
    let s1 := replace_line (add_line s lineno) lineno old
    { s1 with line_no := (lineno : Int) + 2, col_no := 1 }
  | .add_line lineno =>
    let s1 := remove_line s lineno
    { s1 with line_no := (lineno : Int) + 1, col_no := 1 }
  | .replace_line lineno old _ =>
    let s1 := replace_line s lineno old
    { s1 with line_no := (lineno : Int) + 1, col_no := 1 }
  | .split_line lineno _ =>
    let s1 := merge_lines s (lineno + 1)
    { s1 with line_no := (lineno : Int) + 2, col_no := 1 }
  | .merge_lines lineno split =>
    let s1 := split_line s (lineno - 1) split
    { s1 with line_no := (lineno : Int), col_no := 1 }
  | .brk => s

/-- The do/while's continuation test, on the state after one record has
been processed and the position stepped back: stop when the new current
record is a `BREAK` or the sentinel. -/
def undo_stop (s2 : EditorState) : Bool :=
  decide (s2.hpos = 0) || decide (recAt s2 (s2.hpos - 1) = HistoryRecord.brk)

/-- The do/while walk of `undo_history`: process the current record,
step `env->history` back (one position down from the old one: the
primitives append nothing while `loading`), and continue while the new
current record is neither a `BREAK` nor the sentinel.  `hpos` bounds
the number of iterations. -/
def undo_walk : Nat → EditorState → EditorState
  | 0, s => s
  | fuel + 1, s =>
    if s.hpos = 0 then s
    else if undo_stop { undo_apply s (recAt s (s.hpos - 1)) with hpos := s.hpos - 1 } then
      { undo_apply s (recAt s (s.hpos - 1)) with hpos := s.hpos - 1 }
    else undo_walk fuel { undo_apply s (recAt s (s.hpos - 1)) with hpos := s.hpos - 1 }

/-- The length of the line the cursor is on (`lines[line_no-1]->actual`;
a non-positive `line_no` indexes slot 0, as `(line_no - 1).toNat`
does). -/
def curLineLen (s : EditorState) : Int :=
  ((s.lines.getD (s.line_no - 1).toNat []).length : Int)

/-- The two cursor clamps at the top of `place_cursor_actual` (the rest
of that function only adjusts the viewport and the terminal). -/
def place_cursor_clamp (s : EditorState) : EditorState :=
  { s with line_no := if s.line_no < 1 then 1 else s.line_no,
           col_no := if s.col_no < 1 then 1 else s.col_no }

/-- `if (env->line_no > env->line_count) env->line_no = env->line_count;` -/
def clamp_line (s : EditorState) : EditorState :=
  { s with line_no := if (s.lines.length : Int) < s.line_no then (s.lines.length : Int) else s.line_no }

/-- `if (env->col_no > env->lines[env->line_no-1]->actual) env->col_no = ...actual;` -/
def clamp_col (s : EditorState) : EditorState :=
  { s with col_no := if curLineLen s < s.col_no then curLineLen s else s.col_no }

/-- `env->modified = (env->history != env->last_save_history); env->loading = 0;` -/
def recompute_modified (s : EditorState) : EditorState :=
  { s with modified := currentId s != s.lastSaveId, loading := false }

/-- The epilogue shared by `undo_history` and `redo_history`: clamp
`line_no` to `line_count` and `col_no` to the current line's length,
recompute `modified`, clear `loading` (the istate/tab/syntax
recomputations on codepoint-only lines with no lexer change nothing),
and run `place_cursor_actual`'s cursor clamps. -/
def history_tail (s : EditorState) : EditorState :=
  place_cursor_clamp (recompute_modified (clamp_col (clamp_line s)))

/-- `undo_history()`: nothing at the sentinel ("Already at oldest
change"); else set `loading`, walk one break-delimited group back, and
run the epilogue. -/
def undo_history (s : EditorState) : EditorState :=
  if s.hpos = 0 then s
  else history_tail (undo_walk s.hpos { s with loading := true })

/-- The switch of `redo_history` for one record: replay the primitive
with the cursor updates of the source. -/
def redo_apply (s : EditorState) : HistoryRecord → EditorState
  | .insert lineno offset c =>
    let s1 := line_insert s c offset lineno
    { s1 with line_no := (lineno : Int) + 1, col_no := (offset : Int) + 2 }
  | .delete lineno offset _ =>
    let s1 := line_delete s offset lineno
    { s1 with line_no := (lineno : Int) + 1, col_no := (offset : Int) + 1 }
  | .replace lineno offset c _ =>
    let s1 := line_replace s c offset lineno
    { s1 with line_no := (lineno : Int) + 1, col_no := (offset : Int) + 2 }
  | .add_line lineno =>
    let s1 := add_line s lineno
    { s1 with line_no := (lineno : Int) + 2, col_no := 1 }
  | .remove_line lineno _ =>
    let s1 := remove_line s lineno
    { s1 with line_no := (lineno : Int) + 1, col_no := 1 }
  | .replace_line lineno _ contents =>
    let s1 := replace_line s lineno contents
    { s1 with line_no := (lineno : Int) + 2, col_no := 1 }
  | .merge_lines lineno _ =>
    let s1 := merge_lines s lineno
    { s1 with line_no := (lineno : Int) + 1, col_no := 1 }
  | .split_line lineno split =>
    let s1 := split_line s lineno split
    { s1 with line_no := (lineno : Int) + 2, col_no := 1 }
  | .brk => s

/-- The forward walk of `redo_history`: replay records from
`env->history->next` on, stopping at (and consuming) the next `BREAK`
or at the newest record. -/
def redo_walk : Nat → EditorState → EditorState
  | 0, s => s
  | fuel + 1, s =>
    if s.journal.length ≤ s.hpos then s
    else if recAt s s.hpos = HistoryRecord.brk then { s with hpos := s.hpos + 1 }
    else redo_walk fuel { redo_apply s (recAt s s.hpos) with hpos := s.hpos + 1 }

/-- `redo_history()`: nothing at the newest record ("Already at newest
change"); else walk forward to the next break and run the epilogue. -/
def redo_history (s : EditorState) : EditorState :=
  if s.journal.length ≤ s.hpos then s
  else history_tail (redo_walk (s.journal.length - s.hpos) { s with loading := true })

/-- The cursor fix-up of `leave_insert`. -/
def leave_insert_fix (s : EditorState) : EditorState :=
  if curLineLen s < s.col_no then
    { s with col_no := if curLineLen s = 0 then 1 else curLineLen s }
  else s

/-- `leave_insert()`: pull the cursor back inside the line (column at
least 1), append a break, return to normal mode (mode 0). -/
def leave_insert (s : EditorState) : EditorState :=
  { set_history_break (leave_insert_fix s) with mode := 0 }

/-- A freshly set-up buffer (`setup_buffer`): one empty line, cursor at
1:1, journal holding just the sentinel, `last_save_history` the
sentinel, not modified, not loading. -/
def init_state : EditorState :=
  { lines := [[]], line_no := 1, col_no := 1, mode := 0, journal := [], hpos := 0,
    nextId := 1, lastSaveId := 0, modified := false, loading := false }

/-- States reachable from a fresh buffer by valid edits, breaks, saves,
undos and redos. -/
inductive Reachable : EditorState → Prop
  | init : Reachable init_state
  | step_op {s : EditorState} (op : EditOp) :
      Reachable s → op_validb s op = true → Reachable (apply_op s op)
  | step_undo {s : EditorState} : Reachable s → Reachable (undo_history s)
  | step_redo {s : EditorState} : Reachable s → Reachable (redo_history s)

/-- Invoke undo until the journal position has come back to `target`
(the position of the starting record); fuel bounds the invocations. -/
def undo_until : Nat → Nat → EditorState → EditorState
  | 0, _, s => s
  | fuel + 1, target, s =>
    if s.hpos ≤ target then s else undo_until fuel target (undo_history s)

/-- The records of the journal, without their serial tags. -/
def jrecs (s : EditorState) : List HistoryRecord :=
  s.journal.map Prod.snd

/-- The pure effect on the line buffer of undoing one record (what
`undo_apply` does to `lines` when `loading` is set): the mirror image
of each primitive, guards included. -/
def undo_lines (r : HistoryRecord) (L : List (List Nat)) : List (List Nat) :=
  match r with
  | .insert lineno offset _ => modifyLine L lineno (fun l => l.eraseIdx offset)
  | .delete lineno offset old => modifyLine L lineno (List.insertIdx (offset - 1) old)
  | .replace lineno offset _ old => modifyLine L lineno (fun l => l.set offset old)
  | .remove_line lineno old =>
    (if L.length < lineno then L else L.insertIdx lineno []).set lineno old
  | .add_line lineno =>
    if L.length = 1 then L.set lineno [] else L.eraseIdx lineno
  | .replace_line lineno old _ => L.set lineno old
  | .split_line lineno _ =>
    (L.set lineno ((L.getD lineno []) ++ (L.getD (lineno + 1) []))).eraseIdx (lineno + 1)
  | .merge_lines lineno split =>
    if split = 0 then (if L.length < lineno - 1 then L else L.insertIdx (lineno - 1) [])
    else (L.set (lineno - 1) ((L.getD (lineno - 1) []).take split)).insertIdx ((lineno - 1) + 1)
      ((L.getD (lineno - 1) []).drop split)
  | .brk => L

/-- The id of the record one position before the current one. -/
def prevId (s : EditorState) : Nat :=
  currentId { s with hpos := s.hpos - 1 }

/-- The amended modified-flag invariant: whenever the flag is clear,
the current position is the saved one, or is a `Break` appended
directly on top of the saved record. -/
def modified_inv (s : EditorState) : Prop :=
  s.modified = false →
    currentId s = s.lastSaveId ∨
    (1 ≤ s.hpos ∧ recAt s (s.hpos - 1) = HistoryRecord.brk ∧ prevId s = s.lastSaveId)

/-- The per-character `HISTORY_DELETE` records the one-line branch of
`remove_line` appends while clearing the line, listed here in inverse
(rebuild) order: undoing them left to right re-inserts the cells from
the front. -/
def rebuild_recs (lineno : Nat) (start : Nat) : List Nat → List HistoryRecord
  | [] => []
  | c :: rest => .delete lineno (start + 1) c :: rebuild_recs lineno (start + 1) rest

/-- The records an operation appends to the journal, computed from the
pre-state (`remove_line` snapshots the line before freeing it, etc.). -/
def recs_of (s : EditorState) (op : EditOp) : List HistoryRecord :=
  match op with
  | .ins lineno offset c => [.insert lineno offset c]
  | .del lineno offset =>
    if offset = 0 then []
    else [.delete lineno offset ((s.lines.getD lineno []).getD (offset - 1) 0)]
  | .rep lineno offset c => [.replace lineno offset c ((s.lines.getD lineno []).getD offset 0)]
  | .addL lineno => if s.lines.length < lineno then [] else [.add_line lineno]
  | .removeL lineno =>
    if s.lines.length = 1 then (rebuild_recs lineno 0 (s.lines.getD lineno [])).reverse
    else [.remove_line lineno (s.lines.getD lineno [])]
  | .replaceL lineno contents => [.replace_line lineno (s.lines.getD lineno []) contents]
  | .splitL lineno split =>
    if split = 0 then (if s.lines.length < lineno then [] else [.add_line lineno])
    else [.split_line lineno split]
  | .mergeL lineb => [.merge_lines lineb (s.lines.getD (lineb - 1) []).length]
  | .brk =>
    if s.hpos = 0 then []
    else if recAt s (s.hpos - 1) = HistoryRecord.brk then [] else [.brk]
  | .save => []

/-- Undo a list of records (newest first) against a line buffer. -/
def undo_fold (L : List (List Nat)) (rs : List HistoryRecord) : List (List Nat) :=
  rs.foldl (fun L r => undo_lines r L) L

/-- The buffer of the cursor counterexample: one line `ab`, cursor at
column 2, empty journal. -/
def c1Start : EditorState := { init_state with lines := [[97, 98]], col_no := 2 }

/-- The state of the modified-flag counterexample: delete the only
(empty) line of a fresh buffer — `remove_line` on a one-line buffer
clears the line, which appends nothing for an empty line, yet the
dispatcher marks the buffer modified. -/
def c2Bad : EditorState := apply_op init_state (.removeL 0)

/-! ## Forward search (bim.c: find_match, search_next) -/

/-- `line->text[k].codepoint` as the C code reads it: a live cell for
`0 ≤ k < actual`, junk (modelled as codepoint 0) outside. -/
def cellAt (line : List Nat) (k : Int) : Nat :=
  if 0 ≤ k ∧ k < (line.length : Int) then line.getD k.toNat 0 else 0

/-- The inner `while (k < line->actual + 1)` of `find_match`: consume
the needle while the cells match; report success when the needle is
exhausted (the null-check runs inside the loop, so it too requires
`k < actual + 1`). -/
def inner_match (line : List Nat) (ic : Nat) : List Nat → Int → Bool
  | [], k => decide (k < (line.length : Int) + 1)
  | c :: rest, k =>
    decide (k < (line.length : Int) + 1) &&
      (search_matches c (cellAt line k) ic && inner_match line ic rest (k + 1))

/-- The middle `while (j < line->actual + 1)` of `find_match`: try each
start column `j` in turn, reporting the 1-based column `j + 1` of the
first success; fuel counts the remaining iterations. -/
def find_in_line (line : List Nat) (ic : Nat) (needle : List Nat) : Nat → Int → Option Int
  | 0, _ => none
  | fuel + 1, j =>
    if j < (line.length : Int) + 1 then
      if inner_match line ic needle j then some (j + 1)
      else find_in_line line ic needle fuel (j + 1)
    else none

/-- The outer `for (int i = from_line; i <= env->line_count; ++i)` of
`find_match`; after the first line `col` is reset to 0 (so the scan of
a wrapped line starts at `j = -1`). -/
def find_match_go (lines : List (List Nat)) (ic : Nat) (needle : List Nat) :
    Nat → Int → Int → Option (Int × Int)
  | 0, _, _ => none
  | fuel + 1, i, col =>
    if i ≤ (lines.length : Int) then
      match find_in_line (lines.getD (i - 1).toNat []) ic needle
          ((((lines.getD (i - 1).toNat []).length : Int) + 1 - (col - 1)).toNat) (col - 1) with
      | some c => some (i, c)
      | none => find_match_go lines ic needle fuel (i + 1) 0
    else none

/-- `find_match(from_line, from_col, out, str)`: `-1` outputs are
`none`; the case mode comes from `smart_case`. -/
def find_match (cfg : Bool) (lines : List (List Nat)) (needle : List Nat)
    (from_line from_col : Int) : Option (Int × Int) :=
  find_match_go lines (smart_case cfg needle) needle
    (((lines.length : Int) + 1 - from_line).toNat) from_line from_col

/-- `search_next()`: search from `(line_no, col_no + 1)`; on failure
wrap around and search from `(1, 1)`; on success move the cursor.  The
caller guarantees a search term is set. -/
def search_next (cfg : Bool) (s : EditorState) (needle : List Nat) : EditorState :=
  match find_match cfg s.lines needle s.line_no (s.col_no + 1) with
  | some (l, c) => { s with line_no := l, col_no := c }
  | none =>
    match find_match cfg s.lines needle 1 1 with
    | some (l, c) => { s with line_no := l, col_no := c }
    | none => s

/-- A needle occurrence entirely inside the live cells, starting at
0-based column `j` (the spec's notion of a match). -/
def match_liveb (line : List Nat) (ic : Nat) (needle : List Nat) (j : Int) : Bool :=
  decide (0 ≤ j) && decide (j + (needle.length : Int) ≤ (line.length : Int)) &&
    (List.range needle.length).all
      (fun t => search_matches (needle.getD t 0) (line.getD (j.toNat + t) 0) ic)

/-- `(l, c)` is the first live match at or after `(i0, col0)` in scan
order: lines in increasing order from `i0`, columns left to right, the
first line starting at 0-based column `col0 - 1` and wrapped lines at
the line start. -/
def firstMatchFrom (lines : List (List Nat)) (ic : Nat) (needle : List Nat)
    (i0 col0 l c : Int) : Prop :=
  i0 ≤ l ∧ l ≤ (lines.length : Int) ∧
  ∃ j, c = j + 1 ∧
    (if l = i0 then col0 - 1 else -1) ≤ j ∧
    match_liveb (lines.getD (l - 1).toNat []) ic needle j = true ∧
    (∀ j', (if l = i0 then col0 - 1 else -1) ≤ j' → j' < j →
      match_liveb (lines.getD (l - 1).toNat []) ic needle j' = false) ∧
    (∀ i j', i0 ≤ i → i < l → (if i = i0 then col0 - 1 else -1) ≤ j' →
      match_liveb (lines.getD (i - 1).toNat []) ic needle j' = false)

/-- The full behaviour C7 asserts of `search_next`: a hit from the
cursor is the first match strictly past it; on a miss the whole scan
range really holds no live match and the search restarts from `(1,1)`,
a wrapped hit again being first in scan order; two misses leave the
state unchanged. -/
def search_next_spec (cfg : Bool) (s : EditorState) (needle : List Nat) : Prop :=
  (∀ l c : Int,
    find_match cfg s.lines needle s.line_no (s.col_no + 1) = some (l, c) →
      search_next cfg s needle = { s with line_no := l, col_no := c } ∧
      firstMatchFrom s.lines (smart_case cfg needle) needle s.line_no (s.col_no + 1) l c) ∧
  (find_match cfg s.lines needle s.line_no (s.col_no + 1) = none →
    (∀ l c : Int,
      find_match cfg s.lines needle 1 1 = some (l, c) →
        search_next cfg s needle = { s with line_no := l, col_no := c } ∧
        firstMatchFrom s.lines (smart_case cfg needle) needle 1 1 l c) ∧
    (∀ i j', s.line_no ≤ i → i ≤ (s.lines.length : Int) →
      (if i = s.line_no then s.col_no else -1) ≤ j' →
      match_liveb (s.lines.getD (i - 1).toNat []) (smart_case cfg needle) needle j' = false) ∧
    (find_match cfg s.lines needle 1 1 = none → search_next cfg s needle = s))

/-- The buffer of the spec's wrap-around example: one line
`foo bar foo`, cursor at column 9 (the `f` of the second `foo`). -/
def c7State : EditorState :=
  { init_state with
    lines := [[102, 111, 111, 32, 98, 97, 114, 32, 102, 111, 111]]
    col_no := 9 }

/-! ## Instrumented search (C10): every `text[k]` read `find_match`
performs.  A read happens exactly when the inner loop reaches its
comparison, i.e. after the bound test `k < actual + 1` and the needle
null-check have both passed. -/

/-- The cell indices the inner loop reads, in order. -/
def inner_match_reads (line : List Nat) (ic : Nat) : List Nat → Int → List Int
  | [], _ => []
  | c :: rest, k =>
    if k < (line.length : Int) + 1 then
      k :: (if search_matches c (cellAt line k) ic then inner_match_reads line ic rest (k + 1)
            else [])
    else []

/-- The reads of the middle loop: each start column's inner reads, then
the next column's unless a match was reported. -/
def find_in_line_reads (line : List Nat) (ic : Nat) (needle : List Nat) :
    Nat → Int → List Int
  | 0, _ => []
  | fuel + 1, j =>
    if j < (line.length : Int) + 1 then
      inner_match_reads line ic needle j ++
        (if inner_match line ic needle j then []
         else find_in_line_reads line ic needle fuel (j + 1))
    else []

/-- The reads of the whole search, tagged with the 1-based line number. -/
def find_match_go_reads (lines : List (List Nat)) (ic : Nat) (needle : List Nat) :
    Nat → Int → Int → List (Int × Int)
  | 0, _, _ => []
  | fuel + 1, i, col =>
    if i ≤ (lines.length : Int) then
      ((find_in_line_reads (lines.getD (i - 1).toNat []) ic needle
          ((((lines.getD (i - 1).toNat []).length : Int) + 1 - (col - 1)).toNat)
          (col - 1)).map (fun k => (i, k))) ++
        (match find_in_line (lines.getD (i - 1).toNat []) ic needle
            ((((lines.getD (i - 1).toNat []).length : Int) + 1 - (col - 1)).toNat)
            (col - 1) with
         | some _ => []
         | none => find_match_go_reads lines ic needle fuel (i + 1) 0)
    else []

/-- Every `(i, k)` with `line->text[k]` read while searching `lines`
for `needle` from `(from_line, from_col)`. -/
def find_match_reads (cfg : Bool) (lines : List (List Nat)) (needle : List Nat)
    (from_line from_col : Int) : List (Int × Int) :=
  find_match_go_reads lines (smart_case cfg needle) needle
    (((lines.length : Int) + 1 - from_line).toNat) from_line from_col

/-! ## The bracket matcher (bim.c: find_matching_paren, paren_pairs) -/

/-- A cell as the bracket matcher sees it: codepoint and flags (the
matcher masks the flags with `0xF`, the syntax-class nibble). -/
structure PCell where
  codepoint : Nat
  flags : Nat
deriving DecidableEq, Repr, Inhabited

/-- `char * paren_pairs = "()[]{}<>";` -/
def paren_pairs : List Nat := [40, 41, 91, 93, 123, 125, 60, 62]

/-- The table walk of `find_matching_paren`: find the bracket in
`paren_pairs`; an even index means scan forward and the partner is the
next entry, an odd index means scan backward and the partner is the
previous entry. -/
def paren_scan_table (start : Nat) : Nat → List Nat → Option (Int × Nat)
  | _, [] => none
  | i, p :: rest =>
    if start = p then
      some (if i % 2 = 0 then 1 else -1,
        paren_pairs.getD (if i % 2 = 0 then i + 1 else i - 1) 0)
    else paren_scan_table start (i + 1) rest

/-- Direction and partner for a bracket, `none` for anything else. -/
def paren_lookup (start : Nat) : Option (Int × Nat) :=
  paren_scan_table start 0 paren_pairs

/-- The inner `while (col > 0 && col < actual + 1)` of the matcher's
scan: on a cell whose flags nibble equals the start cell's, count up on
the start bracket and down on the partner, reporting the column where
the counter reaches zero; otherwise step by `dir` and return the final
counter when the column leaves the line. -/
def paren_inner (l : List PCell) (flags start pm : Nat) (dir : Int) :
    Nat → Int → Int → Option Int × Int
  | 0, _, count => (none, count)
  | fuel + 1, col, count =>
    if 0 < col ∧ col < (l.length : Int) + 1 then
      if (l.getD (col - 1).toNat ⟨0, 0⟩).flags % 16 = flags then
        if (l.getD (col - 1).toNat ⟨0, 0⟩).codepoint = pm then
          (if (if (l.getD (col - 1).toNat ⟨0, 0⟩).codepoint = start then count + 1
               else count) - 1 = 0 then
            (some col,
             (if (l.getD (col - 1).toNat ⟨0, 0⟩).codepoint = start then count + 1
              else count) - 1)
           else
            paren_inner l flags start pm dir fuel (col + dir)
              ((if (l.getD (col - 1).toNat ⟨0, 0⟩).codepoint = start then count + 1
                else count) - 1))
        else
          paren_inner l flags start pm dir fuel (col + dir)
            (if (l.getD (col - 1).toNat ⟨0, 0⟩).codepoint = start then count + 1 else count)
      else paren_inner l flags start pm dir fuel (col + dir) count
    else (none, count)

/-- The `do { ... } while (1)` of the matcher: scan the current line,
step to the next line in the scan direction, give up at line 0 or
`line_count + 1`, and restart the column at the start or end of the new
line. -/
def paren_outer (lines : List (List PCell)) (flags start pm : Nat) (dir : Int) :
    Nat → Int → Int → Int → Option (Int × Int)
  | 0, _, _, _ => none
  | fuel + 1, line, col, count =>
    match paren_inner (lines.getD (line - 1).toNat []) flags start pm dir
        ((((lines.getD (line - 1).toNat []).length : Int) + 2).toNat) col count with
    | (some c, _) => some (line, c)
    | (none, count1) =>
      if line + dir = 0 ∨ line + dir = (lines.length : Int) + 1 then none
      else
        paren_outer lines flags start pm dir fuel (line + dir)
          (if 0 < dir then 1
           else ((lines.getD (line + dir - 1).toNat []).length : Int)) count1

/-- `find_matching_paren(out_line, out_col, in_col)` on a buffer: guard
against a cursor past the end of the line, read the start cell at
column `col_no - in_col` (0-based), look it up in the table and scan. -/
def find_matching_paren (lines : List (List PCell)) (line_no col_no in_col : Int) :
    Option (Int × Int) :=
  if ((lines.getD (line_no - 1).toNat []).length : Int) < col_no - in_col + 1 then none
  else
    match paren_lookup
        ((lines.getD (line_no - 1).toNat []).getD (col_no - in_col).toNat ⟨0, 0⟩).codepoint with
    | none => none
    | some (dir, pm) =>
      paren_outer lines
        (((lines.getD (line_no - 1).toNat []).getD (col_no - in_col).toNat ⟨0, 0⟩).flags % 16)
        ((lines.getD (line_no - 1).toNat []).getD (col_no - in_col).toNat ⟨0, 0⟩).codepoint
        pm dir (lines.length + 1) line_no (col_no - in_col + 1) 0

/-- The in-range columns of one line in scan order, starting at `col`
and stepping by `dir` (the columns the inner loop visits). -/
def scan_cols (len : Int) (dir : Int) : Nat → Int → List Int
  | 0, _ => []
  | fuel + 1, col =>
    if 0 < col ∧ col < len + 1 then col :: scan_cols len dir fuel (col + dir) else []

/-- Every `(line, col)` the matcher's scan visits, in order: the start
line from the start column, then whole lines in the scan direction up
to (and not including) the buffer boundary. -/
def scan_positions (lines : List (List PCell)) (dir : Int) :
    Nat → Int → Int → List (Int × Int)
  | 0, _, _ => []
  | fuel + 1, line, col =>
    ((scan_cols ((lines.getD (line - 1).toNat []).length : Int) dir
        ((((lines.getD (line - 1).toNat []).length : Int) + 2).toNat) col).map
      (fun c => (line, c))) ++
      (if line + dir = 0 ∨ line + dir = (lines.length : Int) + 1 then []
       else
        scan_positions lines dir fuel (line + dir)
          (if 0 < dir then 1
           else ((lines.getD (line + dir - 1).toNat []).length : Int)))

/-- The spec's description of the scan: walk the visited cells in scan
order, skip cells of a different syntax-class nibble, add one for each
start bracket and subtract one for each partner, and report the first
cell where the counter hits zero; an exhausted scan (boundary reached)
reports nothing. -/
def spec_scan (lines : List (List PCell)) (flags start pm : Nat) :
    List (Int × Int) → Int → Option (Int × Int)
  | [], _ => none
  | (li, co) :: rest, count =>
    if ((lines.getD (li - 1).toNat []).getD (co - 1).toNat ⟨0, 0⟩).flags % 16 = flags then
      if ((lines.getD (li - 1).toNat []).getD (co - 1).toNat ⟨0, 0⟩).codepoint = pm then
        (if (if ((lines.getD (li - 1).toNat []).getD (co - 1).toNat ⟨0, 0⟩).codepoint = start
             then count + 1 else count) - 1 = 0 then some (li, co)
         else
          spec_scan lines flags start pm rest
            ((if ((lines.getD (li - 1).toNat []).getD (co - 1).toNat ⟨0, 0⟩).codepoint = start
              then count + 1 else count) - 1))
      else
        spec_scan lines flags start pm rest
          (if ((lines.getD (li - 1).toNat []).getD (co - 1).toNat ⟨0, 0⟩).codepoint = start
           then count + 1 else count)
    else spec_scan lines flags start pm rest count

/-- The spec-side matcher: same guard and table lookup, then the
declarative scan over the visited positions. -/
def find_matching_paren_spec (lines : List (List PCell)) (line_no col_no in_col : Int) :
    Option (Int × Int) :=
  if ((lines.getD (line_no - 1).toNat []).length : Int) < col_no - in_col + 1 then none
  else
    match paren_lookup
        ((lines.getD (line_no - 1).toNat []).getD (col_no - in_col).toNat ⟨0, 0⟩).codepoint with
    | none => none
    | some (dir, pm) =>
      spec_scan lines
        (((lines.getD (line_no - 1).toNat []).getD (col_no - in_col).toNat ⟨0, 0⟩).flags % 16)
        ((lines.getD (line_no - 1).toNat []).getD (col_no - in_col).toNat ⟨0, 0⟩).codepoint
        pm
        (scan_positions lines dir (lines.length + 1) line_no (col_no - in_col + 1)) 0

/-- A journal record whose redo replay cannot empty the line array: a
`MERGE_LINES` record must name a line index of at least 1, which every
record the editor writes does (`merge_lines` is only invoked with
`lineb ≥ 1`). -/
def rec_linesafe : HistoryRecord → Prop
  | .merge_lines lineb _ => 1 ≤ lineb
  | _ => True

end Bim

-- ===== Theorems =====

namespace Bim

/-! ## Theorems: tab recomputation (C9) -/

theorem recalc_tabs_go_idem (ts : Nat) :
    ∀ (l : List TCell) (j : Nat), recalc_tabs_go ts (recalc_tabs_go ts l j) j = recalc_tabs_go ts l j
  | [], _ => rfl
  | c :: rest, j => by
    by_cases h : c.codepoint = 9 <;>
      simp only [recalc_tabs_go, h, if_pos, if_neg, ite_true, ite_false] <;>
      simp only [h, ite_true, ite_false, List.cons.injEq, true_and] <;>
      exact recalc_tabs_go_idem ts rest _

theorem recalc_tabs_go_codepoint (ts : Nat) :
    ∀ (l : List TCell) (j : Nat), (recalc_tabs_go ts l j).map TCell.codepoint = l.map TCell.codepoint
  | [], _ => rfl
  | c :: rest, j => by
    by_cases h : c.codepoint = 9 <;>
      simp only [recalc_tabs_go, h, ite_true, ite_false, List.map_cons, List.cons.injEq] <;>
      simp only [recalc_tabs_go_codepoint ts rest, and_true, true_and, and_self]

theorem recalc_tabs_go_nontab (ts : Nat) :
    ∀ (l : List TCell) (j i : Nat), (l.getD i default).codepoint ≠ 9 →
      (recalc_tabs_go ts l j).getD i default = l.getD i default
  | [], _, _, _ => rfl
  | c :: rest, j, 0, hi => by
    simp only [List.getD_cons_zero] at hi
    simp [recalc_tabs_go, hi]
  | c :: rest, j, i + 1, hi => by
    simp only [List.getD_cons_succ] at hi
    simp only [recalc_tabs_go, List.getD_cons_succ]
    exact recalc_tabs_go_nontab ts rest _ i hi

theorem recalc_tabs_go_tab (ts : Nat) :
    ∀ (l : List TCell) (j i : Nat), i < l.length → (l.getD i default).codepoint = 9 →
      ((recalc_tabs_go ts l j).getD i default).display_width
        = ts - (j + (((recalc_tabs_go ts l j).take i).map TCell.display_width).sum) % ts
  | [], _, i, hi, _ => by simp at hi
  | c :: rest, j, 0, _, htab => by
    simp only [List.getD_cons_zero] at htab
    simp [recalc_tabs_go, htab]
  | c :: rest, j, i + 1, hi, htab => by
    simp only [List.getD_cons_succ] at htab
    simp only [List.length_cons, Nat.add_lt_add_iff_right] at hi
    simp only [recalc_tabs_go, List.getD_cons_succ, List.take_succ_cons, List.map_cons,
      List.sum_cons]
    rw [recalc_tabs_go_tab ts rest _ i hi htab]
    ring_nf

/-- Claim C9: tab-width recomputation is idempotent; for every positive
tabstop, running `recalculate_tabs` twice equals running it once; the
pass preserves every codepoint and every non-tab cell, and in the result
a tab cell's display width is `tabstop - (j % tabstop)` where `j` is the
display column at which the tab starts (the sum of the widths of the
cells before it). -/
theorem C9_recalculate_tabs_idempotent (ts : Nat) (l : List TCell) (hts : 0 < ts) :
    recalculate_tabs ts (recalculate_tabs ts l) = recalculate_tabs ts l ∧
    (recalculate_tabs ts l).map TCell.codepoint = l.map TCell.codepoint ∧
    (∀ i, (l.getD i default).codepoint ≠ 9 →
      (recalculate_tabs ts l).getD i default = l.getD i default) ∧
    (∀ i, i < l.length → (l.getD i default).codepoint = 9 →
      ((recalculate_tabs ts l).getD i default).display_width
        = ts - (((recalculate_tabs ts l).take i).map TCell.display_width).sum % ts) :=
  ⟨recalc_tabs_go_idem ts l 0, recalc_tabs_go_codepoint ts l 0,
   fun i hi => recalc_tabs_go_nontab ts l 0 i hi,
   fun i hi htab => by
     have h := recalc_tabs_go_tab ts l 0 i hi htab
     simpa using h⟩

/-- Witness for C9 at tabstop 4 on a concrete line `[tab, 'a', tab]`
with stale widths. -/
theorem C9_recalculate_tabs_idempotent_witness :
    recalculate_tabs 4 (recalculate_tabs 4 tabsExample) = recalculate_tabs 4 tabsExample ∧
    (recalculate_tabs 4 tabsExample).map TCell.codepoint = tabsExample.map TCell.codepoint ∧
    (∀ i, (tabsExample.getD i default).codepoint ≠ 9 →
      (recalculate_tabs 4 tabsExample).getD i default = tabsExample.getD i default) ∧
    (∀ i, i < tabsExample.length → (tabsExample.getD i default).codepoint = 9 →
      ((recalculate_tabs 4 tabsExample).getD i default).display_width
        = 4 - (((recalculate_tabs 4 tabsExample).take i).map TCell.display_width).sum % 4) :=
  C9_recalculate_tabs_idempotent 4 tabsExample (by decide)

/-! ## Theorems: smart case (C6) -/

/-- Claim C6: with the smart-case option on (the default), a needle
containing no uppercase codepoint makes every character comparison
case-insensitive (`tolower a = tolower b`), while a needle containing
at least one uppercase codepoint makes every comparison exact. -/
theorem C6_smart_case_matching (needle : List Nat) (a b : Nat) :
    ((∀ c ∈ needle, tolower c = c) →
      (search_matches a b (smart_case true needle) = true ↔ tolower a = tolower b)) ∧
    ((∃ c ∈ needle, tolower c ≠ c) →
      (search_matches a b (smart_case true needle) = true ↔ a = b)) := by
  constructor
  · intro hlow
    have hall : needle.all (fun c => tolower c == c) = true := by
      rw [List.all_eq_true]; intro c hc; exact beq_iff_eq.mpr (hlow c hc)
    simp [smart_case, hall, search_matches]
  · intro hup
    have hall : needle.all (fun c => tolower c == c) = false := by
      rcases hup with ⟨c, hc, hne⟩
      rw [List.all_eq_false]
      exact ⟨c, hc, by simpa using hne⟩
    simp [smart_case, hall, search_matches]

/-- Witness for C6: needle `foo` matches `F` against `f`
case-insensitively; needle `Foo` compares `F` with `f` exactly (and they
differ). -/
theorem C6_smart_case_matching_witness :
    (search_matches 70 102 (smart_case true [102, 111, 111]) = true ↔ tolower 70 = tolower 102) ∧
    (search_matches 70 102 (smart_case true [70, 111, 111]) = true ↔ 70 = 102) :=
  ⟨(C6_smart_case_matching [102, 111, 111] 70 102).1 (by decide),
   (C6_smart_case_matching [70, 111, 111] 70 102).2 (by decide)⟩

/-! ## Theorems: remove_line (C5) -/

/-- Claim C5: for every buffer with at least two lines and every valid
offset, the array surgery of `remove_line` (with the over-long `memmove`
exactly as in the source) leaves the live view equal to the original
line sequence with the line at `offset` erased: earlier lines untouched,
later lines shifted down one slot, one line fewer.  The junk contents
beyond the live range (`f` at indices `≥ line_count`) are universally
quantified. -/
theorem C5_remove_line_erases (f : Nat → Option α) (lc offset : Nat)
    (h2 : 2 ≤ lc) (hoff : offset < lc) :
    liveView (remove_line_shift f lc offset) (lc - 1) = (liveView f lc).eraseIdx offset := by
  have hlen : (liveView f lc).length = lc := by simp [liveView]
  apply List.ext_getElem?
  intro i
  have hlive : ∀ (g : Nat → Option α) (n : Nat) (k : Nat),
      (liveView g n)[k]? = if k < n then some (g k) else none := by
    intro g n k
    by_cases hk : k < n
    · simp [liveView, hk]
    · simp [liveView, hk, List.getElem?_eq_none, Nat.le_of_not_lt]
  rw [List.getElem?_eraseIdx, hlive, hlive]
  by_cases hmm : offset + 1 < lc
  · by_cases hi : i < lc - 1
    · have hine : i ≠ lc - 1 := Nat.ne_of_lt hi
      by_cases hio : i < offset
      · have : ¬(offset ≤ i ∧ i ≤ lc) := by omega
        simp only [remove_line_shift, hmm, ite_true, if_neg hine, if_neg this, if_pos hi,
          if_pos hio, hlive]
        have hlc : i < lc := by omega
        simp [hlc]
      · have hrange : offset ≤ i ∧ i ≤ lc := by omega
        simp only [remove_line_shift, hmm, if_pos, hine, if_neg, hrange, and_self, ite_true,
          ite_false, if_pos hi]
        simp only [if_neg hio, hlive]
        have : i + 1 < lc := by omega
        simp [this, hine]
    · have h1 : ¬ i < lc - 1 := hi
      have h2' : ¬ i < offset := by omega
      simp only [if_neg h1, if_neg h2', hlive]
      have : ¬ i + 1 < lc := by omega
      simp [this]
  · have hoeq : offset = lc - 1 := by omega
    by_cases hi : i < lc - 1
    · have hio : i < offset := by omega
      simp only [remove_line_shift, if_neg hmm, if_pos hi, if_pos hio, hlive]
      have hlc : i < lc := by omega
      simp [hlc]
    · have h2' : ¬ i < offset := by omega
      simp only [if_neg hi, if_neg h2', hlive]
      have : ¬ i + 1 < lc := by omega
      simp [this]

/-! ## Theorems: syntax cascade (C3) -/

theorem getD_set_ne {β : Type _} (L : List β) (m j : Nat) (v d : β) (h : j ≠ m) :
    (L.set m v).getD j d = L.getD j d := by
  rw [List.getD_eq_getElem?_getD, List.getElem?_set, if_neg (fun hh => h hh.symm),
    List.getD_eq_getElem?_getD]

theorem getD_set_self {β : Type _} (L : List β) (m : Nat) (v d : β) (h : m < L.length) :
    (L.set m v).getD m d = v := by
  rw [List.getD_eq_getElem?_getD, List.getElem?_set]
  simp [h]

theorem recalc_syn_go_length (lex : α → Int → Int) (dflt : α) :
    ∀ (fuel : Nat) (L : List (α × Int)) (k : Nat),
      (recalc_syn_go lex dflt fuel L k).length = L.length
  | 0, _, _ => rfl
  | fuel + 1, L, k => by
    simp only [recalc_syn_go]
    split
    · rw [recalc_syn_go_length lex dflt fuel]
      simp
    · rfl

theorem recalc_syn_go_le (lex : α → Int → Int) (dflt : α) :
    ∀ (fuel : Nat) (L : List (α × Int)) (k j : Nat), j ≤ k →
      (recalc_syn_go lex dflt fuel L k).getD j (dflt, 0) = L.getD j (dflt, 0)
  | 0, _, _, _, _ => rfl
  | fuel + 1, L, k, j, hj => by
    simp only [recalc_syn_go]
    split
    · rw [recalc_syn_go_le lex dflt fuel _ (k + 1) j (Nat.le_succ_of_le hj),
        getD_set_ne _ _ _ _ _ (by omega)]
    · rfl

theorem recalc_syn_go_fst (lex : α → Int → Int) (dflt : α) :
    ∀ (fuel : Nat) (L : List (α × Int)) (k j : Nat),
      ((recalc_syn_go lex dflt fuel L k).getD j (dflt, 0)).1 = (L.getD j (dflt, 0)).1
  | 0, _, _, _ => rfl
  | fuel + 1, L, k, j => by
    simp only [recalc_syn_go]
    split
    · rename_i hcond
      rw [recalc_syn_go_fst lex dflt fuel]
      by_cases hj : j = k + 1
      · subst hj
        rw [getD_set_self _ _ _ _ hcond.1]
      · rw [getD_set_ne _ _ _ _ _ hj]
    · rfl

theorem recalc_syn_go_good (lex : α → Int → Int) (dflt : α) :
    ∀ (fuel : Nat) (L : List (α × Int)) (k : Nat), L.length - k ≤ fuel →
      (∀ j, j ≠ k → syn_edge_good lex dflt L j) →
      ∀ j, syn_edge_good lex dflt (recalc_syn_go lex dflt fuel L k) j
  | 0, L, k, hfuel, hpre, j => by
    intro hlt
    simp only [recalc_syn_go] at hlt ⊢
    have hjk : j ≠ k := by omega
    exact hpre j hjk hlt
  | fuel + 1, L, k, hfuel, hpre, j => by
    simp only [recalc_syn_go]
    split
    · rename_i hcond
      apply recalc_syn_go_good lex dflt fuel _ (k + 1) (by simp; omega)
      intro j' hj'
      intro hlt
      rw [List.length_set] at hlt
      by_cases hjk : j' = k
      · subst hjk
        rw [getD_set_self _ _ _ _ hcond.1, getD_set_ne _ _ _ _ _ (by omega)]
      · rw [getD_set_ne _ _ _ _ _ (by omega), getD_set_ne _ _ _ _ _ hj']
        exact hpre j' hjk hlt
    · rename_i hcond
      intro hlt
      by_cases hjk : j = k
      · subst hjk
        rcases not_and_or.mp hcond with h | h
        · exact absurd hlt h
        · exact not_not.mp h
      · exact hpre j hjk hlt

theorem recalc_syn_go_contig (lex : α → Int → Int) (dflt : α) :
    ∀ (fuel : Nat) (L : List (α × Int)) (k i j : Nat), k < i → i ≤ j →
      ((recalc_syn_go lex dflt fuel L k).getD j (dflt, 0)).2 ≠ (L.getD j (dflt, 0)).2 →
      ((recalc_syn_go lex dflt fuel L k).getD i (dflt, 0)).2 ≠ (L.getD i (dflt, 0)).2
  | 0, _, _, _, _, _, _, hch => absurd rfl hch
  | fuel + 1, L, k, i, j, hki, hij, hch => by
    simp only [recalc_syn_go] at hch ⊢
    split at hch <;> rename_i hcond
    · simp only [if_pos hcond] at hch ⊢
      by_cases hik : i = k + 1
      · subst hik
        rw [recalc_syn_go_le lex dflt fuel _ _ _ (le_refl _),
          getD_set_self _ _ _ _ hcond.1]
        exact Ne.symm hcond.2
      · have hki1 : k + 1 < i := by omega
        have hmid := recalc_syn_go_contig lex dflt fuel
          (L.set (k + 1)
            ((L.getD (k + 1) (dflt, 0)).1, lex (L.getD k (dflt, 0)).1 (L.getD k (dflt, 0)).2))
          (k + 1) i j hki1 hij
        rw [getD_set_ne _ _ _ _ _ (by omega), getD_set_ne _ _ _ _ _ hik] at hmid
        exact hmid hch
    · simp only [if_neg hcond] at hch ⊢
      exact absurd rfl hch

/-- Claim C3: after `recalculate_syntax` on line `k` completes (buffer
not mid-load), every line `j` satisfies the fixed-point invariant: the
stored incoming state of line `j+1` equals the lexer's exit state on
line `j` — provided the invariant held before the recompute for every
edge except the one leaving the modified line `k`.  Moreover the cascade
only moves forward (`j ≤ k` untouched), never alters line contents, and
the set of lines whose istate it changes is a contiguous run starting at
`k+1`: it stops at the first line whose istate is left unchanged. -/
theorem C3_recalculate_syn_fixed_point (lex : α → Int → Int) (dflt : α)
    (L : List (α × Int)) (k : Nat) (hpre : ∀ j, j ≠ k → syn_edge_good lex dflt L j) :
    (∀ j, syn_edge_good lex dflt (recalculate_syn lex dflt L k) j) ∧
    (∀ j, j ≤ k → (recalculate_syn lex dflt L k).getD j (dflt, 0) = L.getD j (dflt, 0)) ∧
    (∀ j, ((recalculate_syn lex dflt L k).getD j (dflt, 0)).1 = (L.getD j (dflt, 0)).1) ∧
    (∀ i j, k < i → i ≤ j →
      ((recalculate_syn lex dflt L k).getD j (dflt, 0)).2 ≠ (L.getD j (dflt, 0)).2 →
      ((recalculate_syn lex dflt L k).getD i (dflt, 0)).2 ≠ (L.getD i (dflt, 0)).2) :=
  ⟨recalc_syn_go_good lex dflt (L.length - k) L k (le_refl _) hpre,
   fun j hj => recalc_syn_go_le lex dflt (L.length - k) L k j hj,
   fun j => recalc_syn_go_fst lex dflt (L.length - k) L k j,
   fun i j hki hij hch => recalc_syn_go_contig lex dflt (L.length - k) L k i j hki hij hch⟩

/-- Witness for C3 on a concrete three-line buffer whose only stale
edge leaves line 0, with the lexer `exit = content + entry`. -/
theorem C3_recalculate_syn_fixed_point_witness :
    (∀ j, syn_edge_good synCalcEx 0 (recalculate_syn synCalcEx 0 synLinesEx 0) j) ∧
    (∀ j, j ≤ 0 → (recalculate_syn synCalcEx 0 synLinesEx 0).getD j (0, 0) = synLinesEx.getD j (0, 0)) ∧
    (∀ j, ((recalculate_syn synCalcEx 0 synLinesEx 0).getD j (0, 0)).1 = (synLinesEx.getD j (0, 0)).1) ∧
    (∀ i j, 0 < i → i ≤ j →
      ((recalculate_syn synCalcEx 0 synLinesEx 0).getD j (0, 0)).2 ≠ (synLinesEx.getD j (0, 0)).2 →
      ((recalculate_syn synCalcEx 0 synLinesEx 0).getD i (0, 0)).2 ≠ (synLinesEx.getD i (0, 0)).2) :=
  C3_recalculate_syn_fixed_point synCalcEx 0 synLinesEx 0
    (by
      intro j hj hlt
      have hlen : synLinesEx.length = 3 := rfl
      rw [hlen] at hlt
      have : j = 1 := by omega
      subst this
      decide)


/-! ## Theorems: history machine helpers -/

theorem set_getD_self {b : Type _} : ∀ (L : List b) (i : Nat) (d : b), L.set i (L.getD i d) = L
  | [], _, _ => rfl
  | _ :: _, 0, _ => rfl
  | a :: l, i + 1, d => by
    simp only [List.set_cons_succ, List.getD_cons_succ, List.cons.injEq, true_and]
    exact set_getD_self l i d

theorem getD_append_left {b : Type _} (l1 l2 : List b) (i : Nat) (d : b) (h : i < l1.length) :
    (l1 ++ l2).getD i d = l1.getD i d := by
  rw [List.getD_eq_getElem?_getD, List.getElem?_append, if_pos h, List.getD_eq_getElem?_getD]

theorem getD_append_len {b : Type _} (l1 : List b) (x d : b) :
    (l1 ++ [x]).getD l1.length d = x := by
  rw [List.getD_eq_getElem?_getD, List.getElem?_append, if_neg (lt_irrefl _)]
  simp

theorem getD_take_lt {b : Type _} (l : List b) (n i : Nat) (d : b) (h : i < n) :
    (l.take n).getD i d = l.getD i d := by
  rw [List.getD_eq_getElem?_getD, List.getElem?_take, if_pos h, List.getD_eq_getElem?_getD]

theorem getD_map_snd (l : List (Nat × HistoryRecord)) (i : Nat) :
    (l.map Prod.snd).getD i HistoryRecord.brk = (l.getD i (0, HistoryRecord.brk)).2 := by
  induction l generalizing i with
  | nil => rfl
  | cons a t ih =>
    cases i with
    | zero => rfl
    | succ i => simpa using ih i

/-! Metadata preservation of the primitives under `loading`: during an
undo/redo walk no history is appended and only `lines` (and the cursor)
change. -/

theorem clear_line_go_loading (offset : Nat) :
    ∀ (fuel : Nat) (s : EditorState), s.loading = true →
      (s.lines.getD offset []).length ≤ fuel →
      (clear_line_go offset fuel s).journal = s.journal ∧
      (clear_line_go offset fuel s).hpos = s.hpos ∧
      (clear_line_go offset fuel s).nextId = s.nextId ∧
      (clear_line_go offset fuel s).lastSaveId = s.lastSaveId ∧
      (clear_line_go offset fuel s).modified = s.modified ∧
      (clear_line_go offset fuel s).loading = true ∧
      (clear_line_go offset fuel s).line_no = s.line_no ∧
      (clear_line_go offset fuel s).col_no = s.col_no ∧
      (clear_line_go offset fuel s).lines = s.lines.set offset []
  | 0, s, hld, hf => by
    have h0 : s.lines.getD offset [] = [] := List.length_eq_zero.mp (Nat.le_zero.mp hf)
    have hs := set_getD_self s.lines offset ([] : List Nat)
    rw [h0] at hs
    refine ⟨?_, ?_, ?_, ?_, ?_, ?_, ?_, ?_, ?_⟩ <;>
      first
        | rfl
        | exact hld
        | exact hs.symm
  | fuel + 1, s, hld, hf => by
    simp only [clear_line_go]
    by_cases h0 : (s.lines.getD offset []).length = 0
    · have h0' : s.lines.getD offset [] = [] := List.length_eq_zero.mp h0
      have hs := set_getD_self s.lines offset ([] : List Nat)
      rw [h0'] at hs
      rw [if_pos h0]
      refine ⟨?_, ?_, ?_, ?_, ?_, ?_, ?_, ?_, ?_⟩ <;>
        first
          | rfl
          | exact hld
          | exact hs.symm
    · rw [if_neg h0]
      have hlen : 0 < (s.lines.getD offset []).length := Nat.pos_of_ne_zero h0
      have hoff : offset < s.lines.length := by
        by_contra hc
        rw [List.getD_eq_getElem?_getD, List.getElem?_eq_none (Nat.le_of_not_lt hc)] at hlen
        simp at hlen
      have hstep : line_delete s (s.lines.getD offset []).length offset =
          { s with lines := (modifyLine s.lines offset
              (fun l => l.eraseIdx ((s.lines.getD offset []).length - 1))) } := by
        rw [line_delete, if_neg (Nat.pos_iff_ne_zero.mp hlen), if_pos hld]
      rw [hstep]
      have hlen2 : (((modifyLine s.lines offset
          (fun l => l.eraseIdx ((s.lines.getD offset []).length - 1)))).getD offset []).length
            ≤ fuel := by
        rw [modifyLine, getD_set_self _ _ _ _ hoff, List.length_eraseIdx_of_lt (by omega)]
        omega
      have ih := clear_line_go_loading offset fuel
        { s with lines := (modifyLine s.lines offset
            (fun l => l.eraseIdx ((s.lines.getD offset []).length - 1))) } hld hlen2
      simp only at ih
      rcases ih with ⟨i1, i2, i3, i4, i5, i6, i7, i8, i9⟩
      refine ⟨i1, i2, i3, i4, i5, i6, i7, i8, ?_⟩
      rw [i9, modifyLine, List.set_set]

theorem undo_apply_meta (s : EditorState) (r : HistoryRecord) (hld : s.loading = true) :
    (undo_apply s r).journal = s.journal ∧ (undo_apply s r).hpos = s.hpos ∧
    (undo_apply s r).nextId = s.nextId ∧ (undo_apply s r).lastSaveId = s.lastSaveId ∧
    (undo_apply s r).modified = s.modified ∧ (undo_apply s r).loading = true ∧
    (undo_apply s r).lines = undo_lines r s.lines := by
  cases r with
  | insert lineno offset c =>
    simp [undo_apply, line_delete, hld, undo_lines]
  | delete lineno offset old =>
    simp [undo_apply, line_insert, hld, undo_lines]
  | replace lineno offset c old =>
    simp [undo_apply, line_replace, hld, undo_lines]
  | remove_line lineno old =>
    by_cases hg : s.lines.length < lineno
    · simp [undo_apply, replace_line, add_line, hld, undo_lines, hg]
    · simp [undo_apply, replace_line, add_line, hld, undo_lines, hg]
  | add_line lineno =>
    by_cases h1 : s.lines.length = 1
    · have hc := clear_line_go_loading lineno (s.lines.getD lineno []).length s hld (le_refl _)
      simp only [undo_apply, remove_line, if_pos h1, undo_lines]
      exact ⟨hc.1, hc.2.1, hc.2.2.1, hc.2.2.2.1, hc.2.2.2.2.1, hc.2.2.2.2.2.1,
        hc.2.2.2.2.2.2.2.2⟩
    · simp [undo_apply, remove_line, h1, hld, undo_lines]
  | replace_line lineno old contents =>
    simp [undo_apply, replace_line, hld, undo_lines]
  | split_line lineno split =>
    simp [undo_apply, merge_lines, hld, undo_lines]
  | merge_lines lineno split =>
    by_cases h0 : split = 0
    · by_cases hg : s.lines.length < lineno - 1 <;>
        simp [undo_apply, split_line, add_line, h0, hld, undo_lines, hg]
    · simp [undo_apply, split_line, h0, hld, undo_lines]
  | brk => simp [undo_apply, undo_lines, hld]

theorem undo_walk_meta : ∀ (fuel : Nat) (s : EditorState), s.loading = true →
    (undo_walk fuel s).journal = s.journal ∧ (undo_walk fuel s).nextId = s.nextId ∧
    (undo_walk fuel s).lastSaveId = s.lastSaveId ∧ (undo_walk fuel s).loading = true ∧
    (undo_walk fuel s).hpos ≤ s.hpos
  | 0, s, hld => ⟨rfl, rfl, rfl, hld, le_refl _⟩
  | fuel + 1, s, hld => by
    have hm := undo_apply_meta s (recAt s (s.hpos - 1)) hld
    simp only [undo_walk]
    by_cases h0 : s.hpos = 0
    · rw [if_pos h0]; exact ⟨rfl, rfl, rfl, hld, le_refl _⟩
    · rw [if_neg h0]
      by_cases hstop : undo_stop { undo_apply s (recAt s (s.hpos - 1)) with hpos := s.hpos - 1 } = true
      · rw [if_pos hstop]
        exact ⟨hm.1, hm.2.2.1, hm.2.2.2.1, hm.2.2.2.2.2.1, Nat.sub_le _ _⟩
      · rw [if_neg hstop]
        have ih := undo_walk_meta fuel
          { undo_apply s (recAt s (s.hpos - 1)) with hpos := s.hpos - 1 }
          hm.2.2.2.2.2.1
        refine ⟨?_, ?_, ?_, ih.2.2.2.1, ?_⟩
        · rw [ih.1]; exact hm.1
        · rw [ih.2.1]; exact hm.2.2.1
        · rw [ih.2.2.1]; exact hm.2.2.2.1
        · exact le_trans ih.2.2.2.2 (Nat.sub_le _ _)

theorem redo_apply_meta (s : EditorState) (r : HistoryRecord) (hld : s.loading = true) :
    (redo_apply s r).journal = s.journal ∧ (redo_apply s r).hpos = s.hpos ∧
    (redo_apply s r).nextId = s.nextId ∧ (redo_apply s r).lastSaveId = s.lastSaveId ∧
    (redo_apply s r).loading = true := by
  cases r with
  | insert lineno offset c => simp [redo_apply, line_insert, hld]
  | delete lineno offset old =>
    by_cases h0 : offset = 0 <;> simp [redo_apply, line_delete, hld, h0]
  | replace lineno offset c old => simp [redo_apply, line_replace, hld]
  | remove_line lineno old =>
    by_cases h1 : s.lines.length = 1
    · have hc := clear_line_go_loading lineno (s.lines.getD lineno []).length s hld (le_refl _)
      simp only [redo_apply, remove_line, if_pos h1]
      exact ⟨hc.1, hc.2.1, hc.2.2.1, hc.2.2.2.1, hc.2.2.2.2.2.1⟩
    · simp [redo_apply, remove_line, h1, hld]
  | add_line lineno =>
    by_cases hg : s.lines.length < lineno <;> simp [redo_apply, add_line, hld, hg]
  | replace_line lineno old contents => simp [redo_apply, replace_line, hld]
  | split_line lineno split =>
    by_cases h0 : split = 0
    · by_cases hg : s.lines.length < lineno <;>
        simp [redo_apply, split_line, add_line, h0, hld, hg]
    · simp [redo_apply, split_line, h0, hld]
  | merge_lines lineno split => simp [redo_apply, merge_lines, hld]
  | brk => simp [redo_apply, hld]

theorem redo_walk_meta : ∀ (fuel : Nat) (s : EditorState), s.loading = true →
    s.hpos ≤ s.journal.length →
    (redo_walk fuel s).journal = s.journal ∧ (redo_walk fuel s).nextId = s.nextId ∧
    (redo_walk fuel s).lastSaveId = s.lastSaveId ∧ (redo_walk fuel s).loading = true ∧
    (redo_walk fuel s).hpos ≤ s.journal.length
  | 0, s, hld, hwf => ⟨rfl, rfl, rfl, hld, hwf⟩
  | fuel + 1, s, hld, hwf => by
    simp only [redo_walk]
    by_cases h0 : s.journal.length ≤ s.hpos
    · rw [if_pos h0]; exact ⟨rfl, rfl, rfl, hld, hwf⟩
    · rw [if_neg h0]
      by_cases hb : recAt s s.hpos = HistoryRecord.brk
      · rw [if_pos hb]
        exact ⟨rfl, rfl, rfl, hld, by simpa using Nat.lt_of_not_le h0⟩
      · rw [if_neg hb]
        have hm := redo_apply_meta s (recAt s s.hpos) hld
        have ih := redo_walk_meta fuel { redo_apply s (recAt s s.hpos) with hpos := s.hpos + 1 }
          hm.2.2.2.2 (by simp only [hm.1]; omega)
        refine ⟨?_, ?_, ?_, ih.2.2.2.1, ?_⟩
        · rw [ih.1]; exact hm.1
        · rw [ih.2.1]; exact hm.2.2.1
        · rw [ih.2.2.1]; exact hm.2.2.2.1
        · have := ih.2.2.2.2
          simpa only [hm.1] using this

/-! ## Theorems: the modified flag (C2) -/

theorem wf_hist_append (s : EditorState) (r : HistoryRecord) (h : s.hpos ≤ s.journal.length) :
    (hist_append s r).hpos ≤ (hist_append s r).journal.length := by
  simp only [hist_append, List.length_append, List.length_take, List.length_cons,
    List.length_nil]
  omega

theorem wf_line_delete (s : EditorState) (offset lineno : Nat) (h : s.hpos ≤ s.journal.length) :
    (line_delete s offset lineno).hpos ≤ (line_delete s offset lineno).journal.length := by
  by_cases h0 : offset = 0
  · simpa [line_delete, h0] using h
  · by_cases hld : s.loading = true
    · simpa [line_delete, h0, hld] using h
    · have := wf_hist_append s (.delete lineno offset ((s.lines.getD lineno []).getD (offset - 1) 0)) h
      simpa [line_delete, h0, hld, hist_append] using this

theorem wf_clear_line_go (offset : Nat) :
    ∀ (fuel : Nat) (s : EditorState), s.hpos ≤ s.journal.length →
      (clear_line_go offset fuel s).hpos ≤ (clear_line_go offset fuel s).journal.length
  | 0, s, h => h
  | fuel + 1, s, h => by
    simp only [clear_line_go]
    by_cases h0 : (s.lines.getD offset []).length = 0
    · rwa [if_pos h0]
    · rw [if_neg h0]
      exact wf_clear_line_go offset fuel _ (wf_line_delete s _ offset h)

theorem wf_apply_op (s : EditorState) (op : EditOp) (h : s.hpos ≤ s.journal.length) :
    (apply_op s op).hpos ≤ (apply_op s op).journal.length := by
  have happ : ∀ r, (hist_append s r).hpos ≤ (hist_append s r).journal.length :=
    fun r => wf_hist_append s r h
  cases op with
  | ins lineno offset c =>
    by_cases hld : s.loading = true <;>
      simp [apply_op, set_modified, line_insert, hld, h, happ, hist_append] <;> omega
  | del lineno offset =>
    have := wf_line_delete s offset lineno h
    simpa [apply_op, set_modified] using this
  | rep lineno offset c =>
    by_cases hld : s.loading = true <;>
      simp [apply_op, set_modified, line_replace, hld, h, happ, hist_append] <;> omega
  | addL lineno =>
    by_cases hg : s.lines.length < lineno
    · simpa [apply_op, set_modified, add_line, hg] using h
    · by_cases hld : s.loading = true <;>
        simp [apply_op, set_modified, add_line, hg, hld, h, hist_append] <;> omega
  | removeL lineno =>
    by_cases h1 : s.lines.length = 1
    · have := wf_clear_line_go lineno (s.lines.getD lineno []).length s h
      simpa [apply_op, set_modified, remove_line, h1] using this
    · by_cases hld : s.loading = true <;>
        simp [apply_op, set_modified, remove_line, h1, hld, h, hist_append] <;> omega
  | replaceL lineno contents =>
    by_cases hld : s.loading = true <;>
      simp [apply_op, set_modified, replace_line, hld, h, hist_append] <;> omega
  | splitL lineno split =>
    by_cases h0 : split = 0
    · by_cases hg : s.lines.length < lineno
      · simpa [apply_op, set_modified, split_line, add_line, h0, hg] using h
      · by_cases hld : s.loading = true <;>
          simp [apply_op, set_modified, split_line, add_line, h0, hg, hld, h, hist_append] <;>
          omega
    · by_cases hld : s.loading = true <;>
        simp [apply_op, set_modified, split_line, h0, hld, h, hist_append] <;> omega
  | mergeL lineb =>
    by_cases hld : s.loading = true <;>
      simp [apply_op, set_modified, merge_lines, hld, h, hist_append] <;> omega
  | brk =>
    by_cases h0 : s.hpos = 0
    · simpa [apply_op, set_history_break, h0] using h
    · by_cases hb : recAt s (s.hpos - 1) = HistoryRecord.brk
      · simpa [apply_op, set_history_break, h0, hb] using h
      · have := wf_hist_append s .brk h
        simpa [apply_op, set_history_break, h0, hb] using this
  | save => simpa [apply_op] using h

theorem history_tail_meta (s : EditorState) :
    (history_tail s).journal = s.journal ∧ (history_tail s).hpos = s.hpos ∧
    (history_tail s).nextId = s.nextId ∧ (history_tail s).lastSaveId = s.lastSaveId ∧
    (history_tail s).lines = s.lines :=
  ⟨rfl, rfl, rfl, rfl, rfl⟩

theorem history_tail_inv (s : EditorState) : modified_inv (history_tail s) := by
  intro h
  left
  have hm : (history_tail s).modified
      = (currentId (clamp_col (clamp_line s)) != (clamp_col (clamp_line s)).lastSaveId) := rfl
  rw [hm] at h
  have heq : currentId (clamp_col (clamp_line s)) = (clamp_col (clamp_line s)).lastSaveId := by
    simpa using h
  have h1 : currentId (history_tail s) = currentId (clamp_col (clamp_line s)) := rfl
  have h2 : (history_tail s).lastSaveId = (clamp_col (clamp_line s)).lastSaveId := rfl
  rw [h1, h2]
  exact heq

theorem wf_undo_history (s : EditorState) (h : s.hpos ≤ s.journal.length) :
    (undo_history s).hpos ≤ (undo_history s).journal.length := by
  rw [undo_history]
  by_cases h0 : s.hpos = 0
  · rwa [if_pos h0]
  · rw [if_neg h0]
    have hw := undo_walk_meta s.hpos { s with loading := true } rfl
    have ht := history_tail_meta (undo_walk s.hpos { s with loading := true })
    rw [ht.1, ht.2.1, hw.1]
    exact le_trans hw.2.2.2.2 h

theorem wf_redo_history (s : EditorState) (h : s.hpos ≤ s.journal.length) :
    (redo_history s).hpos ≤ (redo_history s).journal.length := by
  rw [redo_history]
  by_cases h0 : s.journal.length ≤ s.hpos
  · rwa [if_pos h0]
  · rw [if_neg h0]
    have hw := redo_walk_meta (s.journal.length - s.hpos) { s with loading := true } rfl h
    have ht := history_tail_meta (redo_walk (s.journal.length - s.hpos) { s with loading := true })
    rw [ht.1, ht.2.1, hw.1]
    exact hw.2.2.2.2

theorem hist_append_ids (s : EditorState) (r : HistoryRecord) (hwf : s.hpos ≤ s.journal.length) :
    currentId (hist_append s r) = s.nextId ∧
    recAt (hist_append s r) ((hist_append s r).hpos - 1) = r ∧
    prevId (hist_append s r) = currentId s := by
  have htake : (s.journal.take s.hpos).length = s.hpos := by
    simp [List.length_take, Nat.min_eq_left hwf]
  refine ⟨?_, ?_, ?_⟩
  · show (if s.hpos + 1 = 0 then 0
      else idAt (hist_append s r) (s.hpos + 1 - 1)) = s.nextId
    rw [if_neg (Nat.succ_ne_zero _)]
    show ((s.journal.take s.hpos ++ [(s.nextId, r)]).getD (s.hpos + 1 - 1) (0, .brk)).1
      = s.nextId
    have hx := getD_append_len (s.journal.take s.hpos) (s.nextId, r)
      ((0, HistoryRecord.brk) : Nat × HistoryRecord)
    rw [htake] at hx
    rw [Nat.add_sub_cancel, hx]
  · show ((s.journal.take s.hpos ++ [(s.nextId, r)]).getD (s.hpos + 1 - 1) (0, .brk)).2 = r
    have hx := getD_append_len (s.journal.take s.hpos) (s.nextId, r)
      ((0, HistoryRecord.brk) : Nat × HistoryRecord)
    rw [htake] at hx
    rw [Nat.add_sub_cancel, hx]
  · show currentId { hist_append s r with hpos := s.hpos + 1 - 1 } = currentId s
    rw [currentId, currentId]
    simp only [Nat.add_sub_cancel]
    by_cases h0 : s.hpos = 0
    · rw [if_pos h0, if_pos h0]
    · rw [if_neg h0, if_neg h0]
      show ((s.journal.take s.hpos ++ [(s.nextId, r)]).getD (s.hpos - 1) (0, .brk)).1
        = idAt s (s.hpos - 1)
      rw [getD_append_left _ _ _ _ (by omega), getD_take_lt _ _ _ _ (by omega)]
      rfl

theorem inv_apply_op (s : EditorState) (op : EditOp) (hwf : s.hpos ≤ s.journal.length)
    (hinv : modified_inv s) : modified_inv (apply_op s op) := by
  cases op with
  | ins lineno offset c => intro h; simp [apply_op, set_modified] at h
  | del lineno offset => intro h; simp [apply_op, set_modified] at h
  | rep lineno offset c => intro h; simp [apply_op, set_modified] at h
  | addL lineno => intro h; simp [apply_op, set_modified] at h
  | removeL lineno => intro h; simp [apply_op, set_modified] at h
  | replaceL lineno contents => intro h; simp [apply_op, set_modified] at h
  | splitL lineno split => intro h; simp [apply_op, set_modified] at h
  | mergeL lineb => intro h; simp [apply_op, set_modified] at h
  | brk =>
    show modified_inv (set_history_break s)
    rw [set_history_break]
    by_cases h0 : s.hpos = 0
    · rwa [if_pos h0]
    · rw [if_neg h0]
      by_cases hb : recAt s (s.hpos - 1) = HistoryRecord.brk
      · rwa [if_pos hb]
      · rw [if_neg hb]
        intro h
        have hm : (hist_append s .brk).modified = s.modified := rfl
        rw [hm] at h
        rcases hinv h with heq | ⟨_, htop, _⟩
        · right
          have hids := hist_append_ids s .brk hwf
          refine ⟨by simp [hist_append], hids.2.1, ?_⟩
          rw [hids.2.2, heq]
          rfl
        · exact absurd htop hb
  | save =>
    intro _
    left
    rfl

theorem inv_undo_history (s : EditorState) (hinv : modified_inv s) :
    modified_inv (undo_history s) := by
  rw [undo_history]
  by_cases h0 : s.hpos = 0
  · rwa [if_pos h0]
  · rw [if_neg h0]
    exact history_tail_inv _

theorem inv_redo_history (s : EditorState) (hinv : modified_inv s) :
    modified_inv (redo_history s) := by
  rw [redo_history]
  by_cases h0 : s.journal.length ≤ s.hpos
  · rwa [if_pos h0]
  · rw [if_neg h0]
    exact history_tail_inv _

theorem reachable_inv (s : EditorState) (h : Reachable s) :
    s.hpos ≤ s.journal.length ∧ modified_inv s := by
  induction h with
  | init =>
    refine ⟨le_refl _, fun _ => Or.inl rfl⟩
  | step_op op hr hv ih =>
    exact ⟨wf_apply_op _ _ ih.1, inv_apply_op _ _ ih.1 ih.2⟩
  | step_undo hr ih =>
    exact ⟨wf_undo_history _ ih.1, inv_undo_history _ ih.2⟩
  | step_redo hr ih =>
    exact ⟨wf_redo_history _ ih.1, inv_redo_history _ ih.2⟩

/-- Claim C2 (amended): in every reachable state, if the modified flag
is clear then the journal position is the last-saved one, or a `Break`
record appended directly on top of the last-saved record.  (The flag
being set does not imply the position moved: see the
counterexample.) -/
theorem C2_modified_flag_amended (s : EditorState) (h : Reachable s) : modified_inv s :=
  (reachable_inv s h).2

/-- Counterexample to claim C2 as stated: starting from a fresh buffer
at its save point, the line-selection `d` on the single empty line runs
`remove_line` (which clears the empty line, appending no history
record) and then `set_modified()` — reaching a state where `modified`
is true although the journal position still equals
`last_save_history`. -/
theorem C2_modified_flag_counterexample :
    Reachable c2Bad ∧ c2Bad.modified = true ∧ currentId c2Bad = c2Bad.lastSaveId :=
  ⟨Reachable.step_op (EditOp.removeL 0) Reachable.init (by decide), by decide, by decide⟩

/-- Witness for the amended C2 at the initial state. -/
theorem C2_modified_flag_amended_witness : modified_inv init_state :=
  C2_modified_flag_amended init_state Reachable.init

/-! ## Theorems: undo restores the text (C1) — list surgery lemmas -/

theorem getD_insertIdx_lt {b : Type _} :
    ∀ (L : List b) (n i : Nat) (x d : b), i < n → (L.insertIdx n x).getD i d = L.getD i d
  | _, 0, i, _, _, h => absurd h (Nat.not_lt_zero i)
  | [], n + 1, i, x, d, _ => by simp
  | _ :: _, n + 1, 0, x, d, _ => rfl
  | a :: t, n + 1, i + 1, x, d, h => by
    simp only [List.insertIdx_succ_cons, List.getD_cons_succ]
    exact getD_insertIdx_lt t n i x d (by omega)

theorem getD_insertIdx_self {b : Type _} :
    ∀ (L : List b) (n : Nat) (x d : b), n ≤ L.length → (L.insertIdx n x).getD n d = x
  | _, 0, _, _, _ => rfl
  | [], n + 1, x, d, h => by simp at h
  | a :: t, n + 1, x, d, h => by
    simp only [List.insertIdx_succ_cons, List.getD_cons_succ]
    exact getD_insertIdx_self t n x d (by simpa using h)

theorem set_insertIdx_self {b : Type _} :
    ∀ (L : List b) (n : Nat) (x y : b), (L.insertIdx n x).set n y = L.insertIdx n y
  | _, 0, _, _ => rfl
  | [], _ + 1, _, _ => rfl
  | a :: t, n + 1, x, y => by
    simp only [List.insertIdx_succ_cons, List.set_cons_succ]
    rw [set_insertIdx_self t n x y]

theorem getD_eraseIdx_lt {b : Type _} (L : List b) (n i : Nat) (d : b) (h : i < n) :
    (L.eraseIdx n).getD i d = L.getD i d := by
  rw [List.getD_eq_getElem?_getD, List.getElem?_eraseIdx, if_pos h, List.getD_eq_getElem?_getD]

theorem insert_getD_erase : ∀ (l : List Nat) (n : Nat), n < l.length →
    (l.eraseIdx n).insertIdx n (l.getD n 0) = l
  | [], _, h => by simp at h
  | a :: t, 0, _ => rfl
  | a :: t, n + 1, h => by
    simp only [List.eraseIdx_cons_succ, List.insertIdx_succ_cons, List.getD_cons_succ]
    rw [insert_getD_erase t n (by simpa using h)]

theorem modify_modify (L : List (List Nat)) (lineno : Nat) (f g : List Nat → List Nat)
    (h : lineno < L.length) (hfg : g (f (L.getD lineno [])) = L.getD lineno []) :
    modifyLine (modifyLine L lineno f) lineno g = L := by
  rw [modifyLine, modifyLine, getD_set_self _ _ _ _ h, hfg, List.set_set, set_getD_self]

theorem erase_then_restore : ∀ (L : List (List Nat)) (a : Nat), a < L.length →
    ((L.eraseIdx a).insertIdx a []).set a (L.getD a []) = L
  | [], _, h => by simp at h
  | x :: rest, 0, _ => rfl
  | x :: rest, a + 1, h => by
    simp only [List.eraseIdx_cons_succ, List.insertIdx_succ_cons, List.set_cons_succ,
      List.getD_cons_succ, List.cons.injEq, true_and]
    exact erase_then_restore rest a (by simpa using h)

theorem set_insert_erase : ∀ (L : List (List Nat)) (a : Nat) (u v : List Nat), a < L.length →
    u ++ v = L.getD a [] →
    (((L.set a u).insertIdx (a + 1) v).set a (u ++ v)).eraseIdx (a + 1) = L
  | [], _, _, _, h, _ => by simp at h
  | x :: rest, 0, u, v, _, huv => by
    simp only [List.set_cons_zero, List.insertIdx_succ_cons, List.insertIdx_zero,
      List.eraseIdx_cons_succ, List.eraseIdx_cons_zero, List.getD_cons_zero] at huv ⊢
    rw [huv]
  | x :: rest, a + 1, u, v, h, huv => by
    simp only [List.set_cons_succ, List.insertIdx_succ_cons, List.eraseIdx_cons_succ,
      List.getD_cons_succ, List.cons.injEq, true_and] at huv ⊢
    exact set_insert_erase rest a u v (by simpa using h) huv

theorem merge_then_split : ∀ (L : List (List Nat)) (a : Nat) (u v : List Nat),
    a + 1 < L.length → u = L.getD a [] → v = L.getD (a + 1) [] →
    (((L.set a (u ++ v)).eraseIdx (a + 1)).set a u).insertIdx (a + 1) v = L
  | [], _, _, _, h, _, _ => by simp at h
  | [x], _, _, _, h, _, _ => by simp at h
  | x :: y :: rest, 0, u, v, _, hu, hv => by
    simp only [List.getD_cons_zero, List.getD_cons_succ] at hu hv
    simp only [List.set_cons_zero, List.eraseIdx_cons_succ, List.eraseIdx_cons_zero,
      List.insertIdx_succ_cons, List.insertIdx_zero]
    rw [hu, hv]
  | x :: y :: rest, a + 1, u, v, h, hu, hv => by
    simp only [List.set_cons_succ, List.eraseIdx_cons_succ, List.insertIdx_succ_cons,
      List.getD_cons_succ, List.cons.injEq, true_and] at hu hv ⊢
    exact merge_then_split (y :: rest) a u v (by simpa using h) hu hv

theorem merge_then_split_zero : ∀ (L : List (List Nat)) (a : Nat) (v : List Nat),
    a + 1 < L.length → L.getD a [] = [] → v = L.getD (a + 1) [] →
    ((L.set a v).eraseIdx (a + 1)).insertIdx a [] = L
  | [], _, _, h, _, _ => by simp at h
  | [x], _, _, h, _, _ => by simp at h
  | x :: y :: rest, 0, v, _, hu, hv => by
    simp only [List.getD_cons_zero, List.getD_cons_succ] at hu hv
    simp only [List.set_cons_zero, List.eraseIdx_cons_succ, List.eraseIdx_cons_zero,
      List.insertIdx_zero]
    rw [hu, hv]
  | x :: y :: rest, a + 1, v, h, hu, hv => by
    simp only [List.set_cons_succ, List.eraseIdx_cons_succ, List.insertIdx_succ_cons,
      List.getD_cons_succ, List.cons.injEq, true_and] at hu hv ⊢
    exact merge_then_split_zero (y :: rest) a v (by simpa using h) hu hv

theorem rebuild_fold (offset : Nat) : ∀ (rest : List Nat) (M : List (List Nat)) (built : List Nat),
    offset < M.length →
    undo_fold (M.set offset built) (rebuild_recs offset built.length rest)
      = M.set offset (built ++ rest)
  | [], M, built, _ => by simp [rebuild_recs, undo_fold]
  | c :: rest, M, built, h => by
    simp only [rebuild_recs, undo_fold, List.foldl_cons]
    have hstep : undo_lines (.delete offset (built.length + 1) c) (M.set offset built)
        = M.set offset (built ++ [c]) := by
      simp only [undo_lines, Nat.add_sub_cancel, modifyLine]
      rw [getD_set_self _ _ _ _ h, List.insertIdx_length_self, List.set_set]
    rw [hstep]
    have hr := rebuild_fold offset rest M (built ++ [c]) h
    simp only [undo_fold, List.length_append, List.length_cons, List.length_nil,
      List.append_assoc, List.singleton_append] at hr
    exact hr

theorem rebuild_recs_concat (lineno start : Nat) : ∀ (l : List Nat) (c : Nat),
    rebuild_recs lineno start (l ++ [c])
      = rebuild_recs lineno start l ++ [.delete lineno (start + l.length + 1) c]
  | [], c => by simp [rebuild_recs]
  | x :: rest, c => by
    show HistoryRecord.delete lineno (start + 1) x :: rebuild_recs lineno (start + 1) (rest ++ [c])
      = _
    rw [rebuild_recs_concat lineno (start + 1) rest c]
    have he : start + 1 + rest.length + 1 = start + (x :: rest).length + 1 := by
      simp [List.length_cons]
      omega
    rw [he]
    simp [rebuild_recs]

theorem set_ne_nil {b : Type _} (L : List b) (i : Nat) (x : b) (h : L ≠ []) :
    L.set i x ≠ [] := by
  intro hc
  apply h
  have hl := congrArg List.length hc
  rw [List.length_set] at hl
  exact List.length_eq_zero.mp hl

theorem insertIdx_ne_nil {b : Type _} (L : List b) (n : Nat) (x : b) (h : L ≠ []) :
    L.insertIdx n x ≠ [] := by
  by_cases hn : n ≤ L.length
  · intro hc
    have hl := congrArg List.length hc
    rw [List.length_insertIdx n L hn] at hl
    simp at hl
  · rw [List.insertIdx_of_length_lt L x n (Nat.lt_of_not_le hn)]
    exact h

theorem eraseIdx_ne_nil {b : Type _} (L : List b) (n : Nat) (h2 : 2 ≤ L.length) :
    L.eraseIdx n ≠ [] := by
  intro hc
  have hl := congrArg List.length hc
  rw [List.length_eraseIdx, List.length_nil] at hl
  split at hl <;> omega

theorem erase_last_concat : ∀ (l : List Nat), l ≠ [] →
    l.eraseIdx (l.length - 1) ++ [l.getD (l.length - 1) 0] = l
  | [], h => absurd rfl h
  | [x], _ => rfl
  | x :: y :: t, _ => by
    have h1 : (x :: y :: t).length - 1 = (y :: t).length := by simp
    rw [h1]
    show (x :: y :: t).eraseIdx ((y :: t).length - 1 + 1) ++ [(x :: y :: t).getD ((y :: t).length - 1 + 1) 0] = _
    rw [List.eraseIdx_cons_succ, List.getD_cons_succ]
    simp only [List.cons_append, List.cons.injEq, true_and]
    exact erase_last_concat (y :: t) (by simp)

theorem hist_append_take (s : EditorState) (r : HistoryRecord) (hwf : s.hpos ≤ s.journal.length) :
    (jrecs (hist_append s r)).take (hist_append s r).hpos = (jrecs s).take s.hpos ++ [r] := by
  show ((s.journal.take s.hpos ++ [(s.nextId, r)]).map Prod.snd).take (s.hpos + 1)
    = (s.journal.map Prod.snd).take s.hpos ++ [r]
  rw [List.map_append, List.map_take]
  apply List.take_of_length_le
  simp only [List.length_append, List.length_take, List.length_map, List.length_cons,
    List.length_nil]
  omega

theorem clear_line_go_records (offset : Nat) :
    ∀ (fuel : Nat) (s : EditorState), s.loading = false → s.hpos ≤ s.journal.length →
      (s.lines.getD offset []).length ≤ fuel →
      ((jrecs (clear_line_go offset fuel s)).take (clear_line_go offset fuel s).hpos
        = (jrecs s).take s.hpos ++ (rebuild_recs offset 0 (s.lines.getD offset [])).reverse) ∧
      (clear_line_go offset fuel s).hpos = s.hpos + (s.lines.getD offset []).length ∧
      (clear_line_go offset fuel s).loading = false ∧
      (clear_line_go offset fuel s).hpos ≤ (clear_line_go offset fuel s).journal.length ∧
      (clear_line_go offset fuel s).lines = s.lines.set offset []
  | 0, s, hld, hwf, hf => by
    have h0 : s.lines.getD offset [] = [] := List.length_eq_zero.mp (Nat.le_zero.mp hf)
    have hs := set_getD_self s.lines offset ([] : List Nat)
    rw [h0] at hs
    rw [show clear_line_go offset 0 s = s from rfl, h0]
    exact ⟨by simp [rebuild_recs], by simp [rebuild_recs], hld, hwf, hs.symm⟩
  | fuel + 1, s, hld, hwf, hf => by
    by_cases h0 : (s.lines.getD offset []).length = 0
    · have h0' : s.lines.getD offset [] = [] := List.length_eq_zero.mp h0
      have hs := set_getD_self s.lines offset ([] : List Nat)
      rw [h0'] at hs
      rw [show clear_line_go offset (fuel + 1) s = s by rw [clear_line_go, if_pos h0], h0']
      exact ⟨by simp [rebuild_recs], by simp [rebuild_recs], hld, hwf, hs.symm⟩
    · have hstep : clear_line_go offset (fuel + 1) s
          = clear_line_go offset fuel (line_delete s (s.lines.getD offset []).length offset) := by
        rw [clear_line_go, if_neg h0]
      have hlen : 0 < (s.lines.getD offset []).length := Nat.pos_of_ne_zero h0
      have hoff : offset < s.lines.length := by
        by_contra hc
        rw [List.getD_eq_getElem?_getD, List.getElem?_eq_none (Nat.le_of_not_lt hc)] at hlen
        simp at hlen
      have hld' : ¬ s.loading = true := by rw [hld]; exact Bool.false_ne_true
      have hne0 : ¬ (s.lines.getD offset []).length = 0 := h0
      have hdel_lines : (line_delete s (s.lines.getD offset []).length offset).lines
          = modifyLine s.lines offset
              (fun l => l.eraseIdx ((s.lines.getD offset []).length - 1)) := by
        rw [line_delete, if_neg hne0, if_neg hld']
        rfl
      have hdel_j : (line_delete s (s.lines.getD offset []).length offset).journal
          = (hist_append s (.delete offset (s.lines.getD offset []).length
              ((s.lines.getD offset []).getD ((s.lines.getD offset []).length - 1) 0))).journal := by
        rw [line_delete, if_neg hne0, if_neg hld']
      have hdel_hpos : (line_delete s (s.lines.getD offset []).length offset).hpos
          = s.hpos + 1 := by
        rw [line_delete, if_neg hne0, if_neg hld']
        rfl
      have hdld : (line_delete s (s.lines.getD offset []).length offset).loading = false := by
        rw [line_delete, if_neg hne0, if_neg hld']
        exact hld
      have hdlines : (line_delete s (s.lines.getD offset []).length offset).lines.getD offset []
          = (s.lines.getD offset []).eraseIdx ((s.lines.getD offset []).length - 1) := by
        rw [hdel_lines, modifyLine, getD_set_self _ _ _ _ hoff]
      have hdwf : (line_delete s (s.lines.getD offset []).length offset).hpos
          ≤ (line_delete s (s.lines.getD offset []).length offset).journal.length :=
        wf_line_delete s _ offset hwf
      have hflen : ((line_delete s (s.lines.getD offset []).length offset).lines.getD offset []).length
          ≤ fuel := by
        rw [hdlines, List.length_eraseIdx_of_lt (by omega)]
        omega
      have ih := clear_line_go_records offset fuel
        (line_delete s (s.lines.getD offset []).length offset) hdld hdwf hflen
      rw [hstep]
      have htake : (jrecs (line_delete s (s.lines.getD offset []).length offset)).take
            (line_delete s (s.lines.getD offset []).length offset).hpos
          = (jrecs s).take s.hpos
            ++ [HistoryRecord.delete offset (s.lines.getD offset []).length
                  ((s.lines.getD offset []).getD ((s.lines.getD offset []).length - 1) 0)] := by
        have e1 : jrecs (line_delete s (s.lines.getD offset []).length offset)
            = jrecs (hist_append s (.delete offset (s.lines.getD offset []).length
                ((s.lines.getD offset []).getD ((s.lines.getD offset []).length - 1) 0))) := by
          rw [jrecs, jrecs, hdel_j]
        rw [e1, hdel_hpos]
        exact hist_append_take s _ hwf
      have hrec : (rebuild_recs offset 0 (s.lines.getD offset [])).reverse
          = HistoryRecord.delete offset (s.lines.getD offset []).length
              ((s.lines.getD offset []).getD ((s.lines.getD offset []).length - 1) 0)
            :: (rebuild_recs offset 0
                ((line_delete s (s.lines.getD offset []).length offset).lines.getD offset [])).reverse := by
        rw [hdlines]
        conv_lhs => rw [← erase_last_concat (s.lines.getD offset [])
          (by intro hc; rw [hc] at h0; simp at h0)]
        rw [rebuild_recs_concat, List.reverse_append]
        simp only [List.reverse_cons, List.reverse_nil, List.nil_append, List.singleton_append,
          List.cons.injEq]
        constructor
        · congr 2
          rw [List.length_eraseIdx_of_lt (by omega)]
          omega
        · trivial
      refine ⟨?_, ?_, ih.2.2.1, ih.2.2.2.1, ?_⟩
      · rw [ih.1, htake, hrec]
        simp [List.append_assoc]
      · rw [ih.2.1, hdel_hpos, hdlines, List.length_eraseIdx_of_lt (by omega)]
        omega
      · rw [ih.2.2.2.2, hdel_lines, modifyLine, List.set_set]

theorem apply_op_records (s : EditorState) (op : EditOp) (hld : s.loading = false)
    (hwf : s.hpos ≤ s.journal.length) (hne : s.lines ≠ []) (hv : op_validb s op = true) :
    ((jrecs (apply_op s op)).take (apply_op s op).hpos = (jrecs s).take s.hpos ++ recs_of s op) ∧
    (apply_op s op).hpos = s.hpos + (recs_of s op).length ∧
    (apply_op s op).loading = false ∧
    (apply_op s op).hpos ≤ (apply_op s op).journal.length ∧
    (apply_op s op).lines ≠ [] ∧
    undo_fold (apply_op s op).lines (recs_of s op).reverse = s.lines := by
  have hld' : ¬ s.loading = true := by rw [hld]; exact Bool.false_ne_true
  cases op with
  | ins lineno offset c =>
    simp only [op_validb, Bool.and_eq_true, decide_eq_true_eq] at hv
    obtain ⟨hlt, hle⟩ := hv
    have hs : apply_op s (.ins lineno offset c)
        = { hist_append s (.insert lineno offset c) with
            lines := (modifyLine s.lines lineno (List.insertIdx offset c)), modified := true } := by
      simp [apply_op, set_modified, line_insert, hld, hist_append]
    rw [hs]
    refine ⟨hist_append_take s _ hwf, rfl, hld, wf_hist_append s _ hwf,
      set_ne_nil _ _ _ hne, ?_⟩
    show undo_lines (.insert lineno offset c)
      (modifyLine s.lines lineno (List.insertIdx offset c)) = s.lines
    simp only [undo_lines]
    exact modify_modify s.lines lineno _ _ hlt (List.eraseIdx_insertIdx offset _)
  | del lineno offset =>
    simp only [op_validb, Bool.and_eq_true, decide_eq_true_eq] at hv
    obtain ⟨⟨hlt, h1⟩, hle⟩ := hv
    have hne0 : ¬ offset = 0 := by omega
    have hs : apply_op s (.del lineno offset)
        = { hist_append s (.delete lineno offset ((s.lines.getD lineno []).getD (offset - 1) 0)) with
            lines := (modifyLine s.lines lineno (fun l => l.eraseIdx (offset - 1))),
            modified := true } := by
      simp [apply_op, set_modified, line_delete, hld, hne0, hist_append]
    rw [hs]
    have hrec : recs_of s (.del lineno offset)
        = [.delete lineno offset ((s.lines.getD lineno []).getD (offset - 1) 0)] := by
      simp [recs_of, hne0]
    rw [hrec]
    refine ⟨hist_append_take s _ hwf, rfl, hld, wf_hist_append s _ hwf,
      set_ne_nil _ _ _ hne, ?_⟩
    show undo_lines (.delete lineno offset ((s.lines.getD lineno []).getD (offset - 1) 0))
      (modifyLine s.lines lineno (fun l => l.eraseIdx (offset - 1))) = s.lines
    simp only [undo_lines]
    exact modify_modify s.lines lineno _ _ hlt (insert_getD_erase _ _ (by omega))
  | rep lineno offset c =>
    simp only [op_validb, Bool.and_eq_true, decide_eq_true_eq] at hv
    obtain ⟨hlt, hle⟩ := hv
    have hs : apply_op s (.rep lineno offset c)
        = { hist_append s (.replace lineno offset c ((s.lines.getD lineno []).getD offset 0)) with
            lines := (modifyLine s.lines lineno (fun l => l.set offset c)),
            modified := true } := by
      simp [apply_op, set_modified, line_replace, hld, hist_append]
    rw [hs]
    refine ⟨hist_append_take s _ hwf, rfl, hld, wf_hist_append s _ hwf,
      set_ne_nil _ _ _ hne, ?_⟩
    show undo_lines (.replace lineno offset c ((s.lines.getD lineno []).getD offset 0))
      (modifyLine s.lines lineno (fun l => l.set offset c)) = s.lines
    simp only [undo_lines]
    refine modify_modify s.lines lineno _ _ hlt ?_
    rw [List.set_set, set_getD_self]
  | addL lineno =>
    simp only [op_validb, decide_eq_true_eq] at hv
    have hg : ¬ s.lines.length < lineno := Nat.not_lt_of_le hv
    have hs : apply_op s (.addL lineno)
        = { hist_append s (.add_line lineno) with
            lines := s.lines.insertIdx lineno [], modified := true } := by
      simp [apply_op, set_modified, add_line, hld, hg, hist_append]
    rw [hs]
    have hrec : recs_of s (.addL lineno) = [.add_line lineno] := by simp [recs_of, hg]
    rw [hrec]
    refine ⟨hist_append_take s _ hwf, rfl, hld, wf_hist_append s _ hwf,
      insertIdx_ne_nil _ _ _ hne, ?_⟩
    show undo_lines (.add_line lineno) (s.lines.insertIdx lineno []) = s.lines
    simp only [undo_lines]
    rw [if_neg, List.eraseIdx_insertIdx]
    rw [List.length_insertIdx lineno s.lines hv]
    have : 0 < s.lines.length := List.length_pos.mpr hne
    omega
  | removeL lineno =>
    simp only [op_validb, decide_eq_true_eq] at hv
    by_cases h1 : s.lines.length = 1
    · have hs : apply_op s (.removeL lineno)
          = set_modified (clear_line_go lineno (s.lines.getD lineno []).length s) := by
        simp [apply_op, remove_line, h1]
      have hc := clear_line_go_records lineno (s.lines.getD lineno []).length s hld hwf (le_refl _)
      have hrec : recs_of s (.removeL lineno)
          = (rebuild_recs lineno 0 (s.lines.getD lineno [])).reverse := by
        simp [recs_of, h1]
      rw [hs, hrec]
      refine ⟨?_, ?_, ?_, ?_, ?_, ?_⟩
      · show (jrecs (clear_line_go lineno (s.lines.getD lineno []).length s)).take
            (clear_line_go lineno (s.lines.getD lineno []).length s).hpos = _
        exact hc.1
      · show (clear_line_go lineno (s.lines.getD lineno []).length s).hpos = _
        rw [hc.2.1, List.length_reverse]
        have : ∀ (l : List Nat) (st : Nat), (rebuild_recs lineno st l).length = l.length := by
          intro l
          induction l with
          | nil => intro st; rfl
          | cons x t ih => intro st; simp [rebuild_recs, ih]
        rw [this]
      · exact hc.2.2.1
      · exact hc.2.2.2.1
      · show (clear_line_go lineno (s.lines.getD lineno []).length s).lines ≠ []
        rw [hc.2.2.2.2]
        exact set_ne_nil _ _ _ hne
      · show undo_fold (clear_line_go lineno (s.lines.getD lineno []).length s).lines
          (rebuild_recs lineno 0 (s.lines.getD lineno [])).reverse.reverse = s.lines
        rw [List.reverse_reverse, hc.2.2.2.2]
        have hr := rebuild_fold lineno (s.lines.getD lineno []) s.lines [] hv
        simp only [List.length_nil, List.nil_append] at hr
        rw [hr, set_getD_self]
    · have hs : apply_op s (.removeL lineno)
          = { hist_append s (.remove_line lineno (s.lines.getD lineno [])) with
              lines := s.lines.eraseIdx lineno, modified := true } := by
        simp [apply_op, set_modified, remove_line, h1, hld, hist_append]
      rw [hs]
      have hrec : recs_of s (.removeL lineno)
          = [.remove_line lineno (s.lines.getD lineno [])] := by
        simp [recs_of, h1]
      rw [hrec]
      have h2 : 2 ≤ s.lines.length := by
        have : 0 < s.lines.length := List.length_pos.mpr hne
        omega
      refine ⟨hist_append_take s _ hwf, rfl, hld, wf_hist_append s _ hwf,
        eraseIdx_ne_nil _ _ h2, ?_⟩
      show undo_lines (.remove_line lineno (s.lines.getD lineno []))
        (s.lines.eraseIdx lineno) = s.lines
      simp only [undo_lines]
      rw [if_neg (by rw [List.length_eraseIdx_of_lt hv]; omega)]
      exact erase_then_restore s.lines lineno hv
  | replaceL lineno contents =>
    simp only [op_validb, decide_eq_true_eq] at hv
    have hs : apply_op s (.replaceL lineno contents)
        = { hist_append s (.replace_line lineno (s.lines.getD lineno []) contents) with
            lines := s.lines.set lineno contents, modified := true } := by
      simp [apply_op, set_modified, replace_line, hld, hist_append]
    rw [hs]
    refine ⟨hist_append_take s _ hwf, rfl, hld, wf_hist_append s _ hwf,
      set_ne_nil _ _ _ hne, ?_⟩
    show undo_lines (.replace_line lineno (s.lines.getD lineno []) contents)
      (s.lines.set lineno contents) = s.lines
    simp only [undo_lines]
    rw [List.set_set, set_getD_self]
  | splitL lineno split =>
    simp only [op_validb, Bool.and_eq_true, decide_eq_true_eq] at hv
    obtain ⟨hlt, hle⟩ := hv
    by_cases h0 : split = 0
    · have hg : ¬ s.lines.length < lineno := by omega
      have hs : apply_op s (.splitL lineno split)
          = { hist_append s (.add_line lineno) with
              lines := s.lines.insertIdx lineno [], modified := true } := by
        simp [apply_op, set_modified, split_line, add_line, h0, hld, hg, hist_append]
      rw [hs]
      have hrec : recs_of s (.splitL lineno split) = [.add_line lineno] := by
        simp [recs_of, h0, hg]
      rw [hrec]
      refine ⟨hist_append_take s _ hwf, rfl, hld, wf_hist_append s _ hwf,
        insertIdx_ne_nil _ _ _ hne, ?_⟩
      show undo_lines (.add_line lineno) (s.lines.insertIdx lineno []) = s.lines
      simp only [undo_lines]
      rw [if_neg, List.eraseIdx_insertIdx]
      rw [List.length_insertIdx lineno s.lines (by omega)]
      have : 0 < s.lines.length := List.length_pos.mpr hne
      omega
    · have hs : apply_op s (.splitL lineno split)
        = { hist_append s (.split_line lineno split) with
            lines := ((s.lines.set lineno ((s.lines.getD lineno []).take split)).insertIdx
              (lineno + 1) ((s.lines.getD lineno []).drop split)), modified := true } := by
        simp [apply_op, set_modified, split_line, h0, hld, hist_append]
      rw [hs]
      have hrec : recs_of s (.splitL lineno split) = [.split_line lineno split] := by
        simp [recs_of, h0]
      rw [hrec]
      refine ⟨hist_append_take s _ hwf, rfl, hld, wf_hist_append s _ hwf,
        insertIdx_ne_nil _ _ _ (set_ne_nil _ _ _ hne), ?_⟩
      show undo_lines (.split_line lineno split)
        ((s.lines.set lineno ((s.lines.getD lineno []).take split)).insertIdx
          (lineno + 1) ((s.lines.getD lineno []).drop split)) = s.lines
      simp only [undo_lines]
      have hg1 : ((s.lines.set lineno ((s.lines.getD lineno []).take split)).insertIdx
          (lineno + 1) ((s.lines.getD lineno []).drop split)).getD lineno []
          = (s.lines.getD lineno []).take split := by
        rw [getD_insertIdx_lt _ _ _ _ _ (Nat.lt_succ_self lineno),
          getD_set_self _ _ _ _ hlt]
      have hg2 : ((s.lines.set lineno ((s.lines.getD lineno []).take split)).insertIdx
          (lineno + 1) ((s.lines.getD lineno []).drop split)).getD (lineno + 1) []
          = (s.lines.getD lineno []).drop split := by
        rw [getD_insertIdx_self]
        rw [List.length_set]
        omega
      rw [hg1, hg2]
      exact set_insert_erase s.lines lineno _ _ hlt (List.take_append_drop split _)
  | mergeL lineb =>
    simp only [op_validb, Bool.and_eq_true, decide_eq_true_eq] at hv
    obtain ⟨h1, hlen⟩ := hv
    have hab : lineb - 1 + 1 = lineb := Nat.sub_add_cancel h1
    have halt : lineb - 1 < s.lines.length := by omega
    have hs : apply_op s (.mergeL lineb)
        = { hist_append s (.merge_lines lineb (s.lines.getD (lineb - 1) []).length) with
            lines := ((s.lines.set (lineb - 1)
              ((s.lines.getD (lineb - 1) []) ++ (s.lines.getD lineb []))).eraseIdx lineb),
            modified := true } := by
      simp [apply_op, set_modified, merge_lines, hld, hist_append]
    rw [hs]
    have h2 : 2 ≤ (s.lines.set (lineb - 1)
        ((s.lines.getD (lineb - 1) []) ++ (s.lines.getD lineb []))).length := by
      rw [List.length_set]
      omega
    refine ⟨hist_append_take s _ hwf, rfl, hld, wf_hist_append s _ hwf,
      eraseIdx_ne_nil _ _ h2, ?_⟩
    show undo_lines (.merge_lines lineb (s.lines.getD (lineb - 1) []).length)
      ((s.lines.set (lineb - 1)
        ((s.lines.getD (lineb - 1) []) ++ (s.lines.getD lineb []))).eraseIdx lineb) = s.lines
    simp only [undo_lines]
    by_cases hz : (s.lines.getD (lineb - 1) []).length = 0
    · rw [if_pos hz]
      have hznil : s.lines.getD (lineb - 1) [] = [] := List.length_eq_zero.mp hz
      rw [if_neg]
      · have hms := merge_then_split_zero s.lines (lineb - 1) (s.lines.getD lineb [])
          (by omega) hznil (by rw [hab])
        rw [hab] at hms
        rw [hznil, List.nil_append]
        exact hms
      · rw [List.length_eraseIdx_of_lt (by rw [List.length_set]; omega), List.length_set]
        omega
    · rw [if_neg hz]
      have hgetd : ((s.lines.set (lineb - 1)
            ((s.lines.getD (lineb - 1) []) ++ (s.lines.getD lineb []))).eraseIdx lineb).getD
            (lineb - 1) []
          = (s.lines.getD (lineb - 1) []) ++ (s.lines.getD lineb []) := by
        rw [getD_eraseIdx_lt _ _ _ _ (by omega), getD_set_self _ _ _ _ halt]
      rw [hgetd, List.take_left, List.drop_left, hab]
      have hms := merge_then_split s.lines (lineb - 1) (s.lines.getD (lineb - 1) [])
        (s.lines.getD lineb []) (by omega) rfl (by rw [hab])
      rw [hab] at hms
      exact hms
  | brk =>
    by_cases h0 : s.hpos = 0
    · have hs : apply_op s .brk = s := by simp [apply_op, set_history_break, h0]
      have hrec : recs_of s .brk = [] := by simp [recs_of, h0]
      rw [hs, hrec]
      exact ⟨by simp, by simp, hld, hwf, hne, rfl⟩
    · by_cases hb : recAt s (s.hpos - 1) = HistoryRecord.brk
      · have hs : apply_op s .brk = s := by simp [apply_op, set_history_break, h0, hb]
        have hrec : recs_of s .brk = [] := by simp [recs_of, h0, hb]
        rw [hs, hrec]
        exact ⟨by simp, by simp, hld, hwf, hne, rfl⟩
      · have hs : apply_op s .brk = hist_append s .brk := by
          simp [apply_op, set_history_break, h0, hb]
        have hrec : recs_of s .brk = [.brk] := by simp [recs_of, h0, hb]
        rw [hs, hrec]
        exact ⟨hist_append_take s _ hwf, rfl, hld, wf_hist_append s _ hwf, hne, rfl⟩
  | save =>
    have hs : apply_op s .save = { s with modified := false, lastSaveId := currentId s } := rfl
    rw [hs]
    exact ⟨by simp [recs_of, jrecs], by simp [recs_of], hld, hwf, hne, rfl⟩

/-- Witness for C5: a three-line buffer (junk `none` beyond the live
range) with the middle line removed. -/
theorem C5_remove_line_erases_witness :
    liveView (remove_line_shift (fun i => [some 10, some 20, some 30].getD i none) 3 1) 2
      = (liveView (fun i => [some 10, some 20, some 30].getD i none) 3).eraseIdx 1 :=
  C5_remove_line_erases (fun i => [some 10, some 20, some 30].getD i none) 3 1
    (by decide) (by decide)

/-! ## Theorems: undo rewinds break-delimited groups (C1) -/

theorem recAt_jrecs (s : EditorState) (i : Nat) :
    recAt s i = (jrecs s).getD i HistoryRecord.brk :=
  (getD_map_snd s.journal i).symm

theorem jrecs_len (s : EditorState) : (jrecs s).length = s.journal.length :=
  List.length_map _ _

theorem recAt_congr {s t : EditorState} (h : s.journal = t.journal) (i : Nat) :
    recAt s i = recAt t i := by
  simp only [recAt, h]

theorem jrecs_congr {s t : EditorState} (h : s.journal = t.journal) :
    jrecs s = jrecs t := by
  simp only [jrecs, h]

theorem undo_fold_append (L : List (List Nat)) (rs1 rs2 : List HistoryRecord) :
    undo_fold L (rs1 ++ rs2) = undo_fold (undo_fold L rs1) rs2 :=
  List.foldl_append _ _ rs1 rs2

theorem slice_take_succ {b : Type _} (l : List b) (p k : Nat) (d : b)
    (h : p + k < l.length) :
    (l.drop p).take (k + 1) = (l.drop p).take k ++ [l.getD (p + k) d] := by
  rw [List.take_succ]
  congr 1
  rw [List.getElem?_drop, List.getElem?_eq_getElem h, List.getD_eq_getElem l d h]
  rfl

theorem slice_split {b : Type _} (l : List b) (t p n : Nat) (h1 : t ≤ p) (h2 : p ≤ n) :
    (l.drop t).take (n - t) = (l.drop t).take (p - t) ++ (l.drop p).take (n - p) := by
  have hn : n - t = (p - t) + (n - p) := by omega
  have hp : t + (p - t) = p := by omega
  rw [hn, List.take_add, List.drop_drop, hp]

/-- Composing `apply_op_records` over a valid sequence: the whole run
appends a block of records on top of the preserved prefix, advances the
position by the block's length, and undoing the block newest-first
restores the starting line buffer. -/
theorem apply_seq_records : ∀ (ops : List EditOp) (s : EditorState),
    s.loading = false → s.hpos ≤ s.journal.length → s.lines ≠ [] →
    valid_seqb s ops = true →
    ∃ rs : List HistoryRecord,
      (jrecs (apply_seq s ops)).take (apply_seq s ops).hpos
        = (jrecs s).take s.hpos ++ rs ∧
      (apply_seq s ops).hpos = s.hpos + rs.length ∧
      (apply_seq s ops).loading = false ∧
      (apply_seq s ops).hpos ≤ (apply_seq s ops).journal.length ∧
      (apply_seq s ops).lines ≠ [] ∧
      undo_fold (apply_seq s ops).lines rs.reverse = s.lines
  | [], s, hld, hwf, hne, _ =>
    ⟨[], by simp [apply_seq], by simp [apply_seq], hld, hwf, hne, rfl⟩
  | op :: ops, s, hld, hwf, hne, hv => by
    simp only [valid_seqb, Bool.and_eq_true] at hv
    have h1 := apply_op_records s op hld hwf hne hv.1
    obtain ⟨rs, e1, e2, e3, e4, e5, e6⟩ :=
      apply_seq_records ops (apply_op s op) h1.2.2.1 h1.2.2.2.1 h1.2.2.2.2.1 hv.2
    have hstep : apply_seq s (op :: ops) = apply_seq (apply_op s op) ops := rfl
    have h16 := h1.2.2.2.2.2
    refine ⟨recs_of s op ++ rs, ?_, ?_, ?_, ?_, ?_, ?_⟩
    · rw [hstep, e1, h1.1, List.append_assoc]
    · rw [hstep, e2, h1.2.1, List.length_append]; omega
    · rw [hstep]; exact e3
    · rw [hstep]; exact e4
    · rw [hstep]; exact e5
    · rw [hstep, List.reverse_append, undo_fold_append, e6]
      exact h16

/-- One break-delimited undo walk, characterized on the journal: from
position `hpos` it stops at some break boundary `p` not below `target`
(itself a break boundary), leaves the journal alone, and the resulting
line buffer is the fold of the undone slice, newest record first. -/
theorem undo_walk_records : ∀ (fuel : Nat) (s : EditorState) (target : Nat),
    s.loading = true → target < s.hpos → s.hpos ≤ s.journal.length →
    s.hpos - target ≤ fuel →
    (target = 0 ∨ recAt s (target - 1) = HistoryRecord.brk) →
    ∃ p, target ≤ p ∧ p < s.hpos ∧
      (undo_walk fuel s).hpos = p ∧
      (undo_walk fuel s).journal = s.journal ∧
      (undo_walk fuel s).loading = true ∧
      (undo_walk fuel s).lines
        = undo_fold s.lines (((jrecs s).drop p).take (s.hpos - p)).reverse ∧
      (p = 0 ∨ recAt s (p - 1) = HistoryRecord.brk)
  | 0, _, _, _, hlt, _, hfuel, _ => absurd hfuel (by omega)
  | fuel + 1, s, target, hld, hlt, hwf, hfuel, hmark => by
    have h0 : ¬ s.hpos = 0 := by omega
    have hm := undo_apply_meta s (recAt s (s.hpos - 1)) hld
    have hs2j : ({ undo_apply s (recAt s (s.hpos - 1)) with
        hpos := s.hpos - 1 } : EditorState).journal = s.journal := hm.1
    have hs2l : ({ undo_apply s (recAt s (s.hpos - 1)) with
        hpos := s.hpos - 1 } : EditorState).lines
        = undo_lines (recAt s (s.hpos - 1)) s.lines := hm.2.2.2.2.2.2
    have hsl1 : ((jrecs s).drop (s.hpos - 1)).take 1 = [recAt s (s.hpos - 1)] := by
      have hb : (s.hpos - 1) + 0 < (jrecs s).length := by rw [jrecs_len]; omega
      have h2 := slice_take_succ (jrecs s) (s.hpos - 1) 0 HistoryRecord.brk hb
      simpa [recAt_jrecs] using h2
    simp only [undo_walk]
    rw [if_neg h0]
    by_cases hstop : undo_stop { undo_apply s (recAt s (s.hpos - 1)) with
        hpos := s.hpos - 1 } = true
    · rw [if_pos hstop]
      simp only [undo_stop, Bool.or_eq_true, decide_eq_true_eq] at hstop
      refine ⟨s.hpos - 1, by omega, by omega, rfl, hs2j, hm.2.2.2.2.2.1, ?_, ?_⟩
      · have h1 : s.hpos - (s.hpos - 1) = 1 := by omega
        rw [h1, hsl1, hs2l]
        rfl
      · rcases hstop with h | h
        · exact Or.inl h
        · exact Or.inr ((recAt_congr hs2j (s.hpos - 1 - 1)).symm.trans h)
    · rw [if_neg hstop]
      simp only [undo_stop, Bool.or_eq_true, decide_eq_true_eq, not_or] at hstop
      have hne2 : ¬ target = s.hpos - 1 := by
        intro he
        rcases hmark with h | h
        · exact hstop.1 (by omega)
        · apply hstop.2
          have h2 := (recAt_congr hs2j (target - 1)).trans h
          rw [he] at h2
          exact h2
      have harg1 : target < ({ undo_apply s (recAt s (s.hpos - 1)) with
          hpos := s.hpos - 1 } : EditorState).hpos := by
        show target < s.hpos - 1
        omega
      have harg2 : ({ undo_apply s (recAt s (s.hpos - 1)) with
          hpos := s.hpos - 1 } : EditorState).hpos
          ≤ ({ undo_apply s (recAt s (s.hpos - 1)) with
          hpos := s.hpos - 1 } : EditorState).journal.length := by
        rw [hs2j]
        show s.hpos - 1 ≤ s.journal.length
        omega
      have harg3 : ({ undo_apply s (recAt s (s.hpos - 1)) with
          hpos := s.hpos - 1 } : EditorState).hpos - target ≤ fuel := by
        show s.hpos - 1 - target ≤ fuel
        omega
      have hmark2 : target = 0 ∨
          recAt ({ undo_apply s (recAt s (s.hpos - 1)) with
            hpos := s.hpos - 1 } : EditorState) (target - 1) = HistoryRecord.brk := by
        rcases hmark with h | h
        · exact Or.inl h
        · exact Or.inr ((recAt_congr hs2j (target - 1)).trans h)
      obtain ⟨p, hp1, hp2, hwh, hwj, hwld, hwlines, hpmark⟩ :=
        undo_walk_records fuel
          { undo_apply s (recAt s (s.hpos - 1)) with hpos := s.hpos - 1 }
          target hm.2.2.2.2.2.1 harg1 harg2 harg3 hmark2
      have hp2' : p < s.hpos - 1 := hp2
      refine ⟨p, hp1, by omega, hwh, hwj.trans hs2j, hwld, ?_, ?_⟩
      · have hsplit := slice_split (jrecs s) p (s.hpos - 1) s.hpos (by omega) (by omega)
        rw [hwlines, hs2l]
        have hj2 : jrecs ({ undo_apply s (recAt s (s.hpos - 1)) with
            hpos := s.hpos - 1 } : EditorState) = jrecs s := jrecs_congr hs2j
        rw [hj2]
        have hh2 : ({ undo_apply s (recAt s (s.hpos - 1)) with
            hpos := s.hpos - 1 } : EditorState).hpos = s.hpos - 1 := rfl
        rw [hh2, hsplit]
        have h1 : s.hpos - (s.hpos - 1) = 1 := by omega
        rw [h1, hsl1, List.reverse_append, List.reverse_singleton]
        rfl
      · rcases hpmark with h | h
        · exact Or.inl h
        · exact Or.inr ((recAt_congr hs2j (p - 1)).symm.trans h)

/-- Repeating `undo_history` until the journal position is back at a
break boundary `target` lands exactly at `target` and folds the records
above it, newest first, into the line buffer. -/
theorem undo_until_records : ∀ (fuel : Nat) (s : EditorState) (target : Nat),
    s.loading = false → target ≤ s.hpos → s.hpos ≤ s.journal.length →
    s.hpos - target ≤ fuel →
    (target = 0 ∨ recAt s (target - 1) = HistoryRecord.brk) →
    (undo_until fuel target s).hpos = target ∧
    (undo_until fuel target s).lines
      = undo_fold s.lines (((jrecs s).drop target).take (s.hpos - target)).reverse
  | 0, s, target, _, hle, _, hfuel, _ => by
    have h2 : s.hpos = target := by omega
    have h : s.hpos - target = 0 := by omega
    refine ⟨h2, ?_⟩
    rw [h]
    simp [undo_until, undo_fold]
  | fuel + 1, s, target, hld, hle, hwf, hfuel, hmark => by
    simp only [undo_until]
    by_cases hstop : s.hpos ≤ target
    · rw [if_pos hstop]
      have h2 : s.hpos = target := le_antisymm hstop hle
      have h : s.hpos - target = 0 := by omega
      refine ⟨h2, ?_⟩
      rw [h]
      simp [undo_fold]
    · rw [if_neg hstop]
      have hlt : target < s.hpos := Nat.lt_of_not_le hstop
      have h0 : ¬ s.hpos = 0 := by omega
      obtain ⟨p, hp1, hp2, hwh, hwj, _, hwlines, hpmark⟩ :=
        undo_walk_records s.hpos { s with loading := true } target rfl hlt hwf
          (Nat.sub_le _ _) hmark
      have hp2' : p < s.hpos := hp2
      have hu : undo_history s
          = history_tail (undo_walk s.hpos { s with loading := true }) := by
        rw [undo_history, if_neg h0]
      have ht := history_tail_meta (undo_walk s.hpos { s with loading := true })
      have hln : (undo_history s).loading = false := by rw [hu]; rfl
      have hh : (undo_history s).hpos = p := by rw [hu]; exact ht.2.1.trans hwh
      have hj : (undo_history s).journal = s.journal := by rw [hu]; exact ht.1.trans hwj
      have hl : (undo_history s).lines
          = undo_fold s.lines (((jrecs s).drop p).take (s.hpos - p)).reverse := by
        rw [hu]
        exact ht.2.2.2.2.trans hwlines
      have hmark2 : target = 0 ∨ recAt (undo_history s) (target - 1) = HistoryRecord.brk := by
        rcases hmark with h | h
        · exact Or.inl h
        · exact Or.inr ((recAt_congr hj (target - 1)).trans h)
      have ih := undo_until_records fuel (undo_history s) target hln
        (by rw [hh]; exact hp1) (by rw [hh, hj]; omega) (by rw [hh]; omega) hmark2
      refine ⟨ih.1, ?_⟩
      rw [ih.2, hl, hh, jrecs_congr hj]
      rw [slice_split (jrecs s) target p s.hpos hp1 (le_of_lt hp2'), List.reverse_append,
        undo_fold_append]

theorem recAt_of_take_front {s1 s0 : EditorState} {rs : List HistoryRecord}
    (h : (jrecs s1).take s1.hpos = (jrecs s0).take s0.hpos ++ rs)
    (hwf0 : s0.hpos ≤ s0.journal.length) (hle : s0.hpos ≤ s1.hpos)
    (i : Nat) (hi : i < s0.hpos) :
    recAt s1 i = recAt s0 i := by
  have h1 : (jrecs s1).getD i HistoryRecord.brk
      = ((jrecs s1).take s1.hpos).getD i HistoryRecord.brk :=
    (getD_take_lt _ _ _ _ (lt_of_lt_of_le hi hle)).symm
  rw [recAt_jrecs, recAt_jrecs, h1, h, getD_append_left]
  · exact getD_take_lt _ _ _ _ hi
  · rw [List.length_take, jrecs_len]
    exact lt_min hi (lt_of_lt_of_le hi hwf0)

/-- C1 (amended to the text and the journal position): starting from a
break boundary (`history` at the sentinel or on a `BREAK`), any valid
sequence of edits followed by undo invocations until the journal
position has come back restores the line buffer and the position
exactly.  The cursor, by contrast, is set from each record's stored
fields during the walk and need not return (see the counterexample). -/
theorem C1_undo_restores_text (s0 : EditorState) (ops : List EditOp)
    (hld : s0.loading = false) (hwf : s0.hpos ≤ s0.journal.length)
    (hne : s0.lines ≠ [])
    (hbrk : s0.hpos = 0 ∨ recAt s0 (s0.hpos - 1) = HistoryRecord.brk)
    (hval : valid_seqb s0 ops = true) :
    (undo_until (apply_seq s0 ops).hpos s0.hpos (apply_seq s0 ops)).lines = s0.lines ∧
    (undo_until (apply_seq s0 ops).hpos s0.hpos (apply_seq s0 ops)).hpos = s0.hpos := by
  obtain ⟨rs, e1, e2, e3, e4, e5, e6⟩ := apply_seq_records ops s0 hld hwf hne hval
  have hle : s0.hpos ≤ (apply_seq s0 ops).hpos := by omega
  have hmark : s0.hpos = 0 ∨
      recAt (apply_seq s0 ops) (s0.hpos - 1) = HistoryRecord.brk := by
    rcases hbrk with h | h
    · exact Or.inl h
    · rcases Nat.eq_zero_or_pos s0.hpos with h0 | h0
      · exact Or.inl h0
      · exact Or.inr ((recAt_of_take_front e1 hwf hle (s0.hpos - 1) (by omega)).trans h)
  have hu := undo_until_records (apply_seq s0 ops).hpos (apply_seq s0 ops) s0.hpos
    e3 hle e4 (Nat.sub_le _ _) hmark
  refine ⟨?_, hu.1⟩
  rw [hu.2]
  have hlen_pref : ((jrecs s0).take s0.hpos).length = s0.hpos := by
    rw [List.length_take, jrecs_len]
    exact Nat.min_eq_left hwf
  have hslice : ((jrecs (apply_seq s0 ops)).drop s0.hpos).take
      ((apply_seq s0 ops).hpos - s0.hpos) = rs := by
    rw [← List.drop_take, e1]
    exact List.drop_left' hlen_pref
  rw [hslice]
  exact e6

/-- Witness for C1: a fresh buffer, one insertion, one undo. -/
theorem C1_undo_restores_text_witness :
    (undo_until (apply_seq init_state [EditOp.ins 0 0 97]).hpos init_state.hpos
        (apply_seq init_state [EditOp.ins 0 0 97])).lines = init_state.lines ∧
    (undo_until (apply_seq init_state [EditOp.ins 0 0 97]).hpos init_state.hpos
        (apply_seq init_state [EditOp.ins 0 0 97])).hpos = init_state.hpos :=
  C1_undo_restores_text init_state [EditOp.ins 0 0 97] rfl (by decide) (by decide)
    (Or.inl rfl) (by decide)

/-- C1 counterexample for the cursor half of the claim: from the line
`ab` with the cursor at column 2, replacing the first cell and undoing
restores the text and the position, but `undo_history` places the
cursor at the record's column (1), not back at column 2. -/
theorem C1_cursor_counterexample :
    (undo_until (apply_seq c1Start [EditOp.rep 0 0 99]).hpos c1Start.hpos
        (apply_seq c1Start [EditOp.rep 0 0 99])).lines = c1Start.lines ∧
    (undo_until (apply_seq c1Start [EditOp.rep 0 0 99]).hpos c1Start.hpos
        (apply_seq c1Start [EditOp.rep 0 0 99])).hpos = c1Start.hpos ∧
    ¬ (undo_until (apply_seq c1Start [EditOp.rep 0 0 99]).hpos c1Start.hpos
        (apply_seq c1Start [EditOp.rep 0 0 99])).col_no = c1Start.col_no := by
  decide

/-! ## Theorems: cursor validity after undo and leave-insert (C4) -/

theorem eraseIdx_succ_ne_nil (L : List (List Nat)) (n : Nat) (h : L ≠ []) :
    L.eraseIdx (n + 1) ≠ [] := by
  cases L with
  | nil => exact absurd rfl h
  | cons a t => simp [List.eraseIdx_cons_succ]

theorem undo_lines_ne_nil (r : HistoryRecord) (L : List (List Nat)) (h : L ≠ []) :
    undo_lines r L ≠ [] := by
  cases r with
  | insert lineno offset c => exact set_ne_nil _ _ _ h
  | delete lineno offset old => exact set_ne_nil _ _ _ h
  | replace lineno offset c old => exact set_ne_nil _ _ _ h
  | remove_line lineno old =>
    simp only [undo_lines]
    split_ifs with hg
    · exact set_ne_nil _ _ _ h
    · exact set_ne_nil _ _ _ (insertIdx_ne_nil _ _ _ h)
  | add_line lineno =>
    simp only [undo_lines]
    split_ifs with h1
    · exact set_ne_nil _ _ _ h
    · refine eraseIdx_ne_nil _ _ ?_
      cases L with
      | nil => exact absurd rfl h
      | cons a t =>
        cases t with
        | nil => exact absurd rfl h1
        | cons b u => simp
  | replace_line lineno old contents => exact set_ne_nil _ _ _ h
  | split_line lineno split =>
    exact eraseIdx_succ_ne_nil _ _ (set_ne_nil _ _ _ h)
  | merge_lines lineno split =>
    simp only [undo_lines]
    split_ifs with h0 hg
    · exact h
    · exact insertIdx_ne_nil _ _ _ h
    · exact insertIdx_ne_nil _ _ _ (set_ne_nil _ _ _ h)
  | brk => exact h

theorem undo_walk_lines_ne : ∀ (fuel : Nat) (s : EditorState), s.loading = true →
    s.lines ≠ [] → (undo_walk fuel s).lines ≠ []
  | 0, _, _, hne => hne
  | fuel + 1, s, hld, hne => by
    have hm := undo_apply_meta s (recAt s (s.hpos - 1)) hld
    have hs2l : ({ undo_apply s (recAt s (s.hpos - 1)) with
        hpos := s.hpos - 1 } : EditorState).lines
        = undo_lines (recAt s (s.hpos - 1)) s.lines := hm.2.2.2.2.2.2
    have hne2 : ({ undo_apply s (recAt s (s.hpos - 1)) with
        hpos := s.hpos - 1 } : EditorState).lines ≠ [] := by
      rw [hs2l]
      exact undo_lines_ne_nil _ _ hne
    simp only [undo_walk]
    by_cases h0 : s.hpos = 0
    · rw [if_pos h0]; exact hne
    · rw [if_neg h0]
      by_cases hstop : undo_stop { undo_apply s (recAt s (s.hpos - 1)) with
          hpos := s.hpos - 1 } = true
      · rw [if_pos hstop]; exact hne2
      · rw [if_neg hstop]
        exact undo_walk_lines_ne fuel _ hm.2.2.2.2.2.1 hne2

/-- The cursor clamps of the shared history epilogue put the cursor
inside the buffer and inside (or at column 1 of) the current line. -/
theorem history_tail_cursor (w : EditorState) (hne : w.lines ≠ []) :
    1 ≤ (history_tail w).line_no ∧
    (history_tail w).line_no ≤ ((history_tail w).lines.length : Int) ∧
    1 ≤ (history_tail w).col_no ∧
    (history_tail w).col_no ≤ max 1 (curLineLen (history_tail w)) := by
  have hll : 1 ≤ (w.lines.length : Int) := by
    have h : w.lines.length ≠ 0 := fun h => hne (List.eq_nil_of_length_eq_zero h)
    omega
  have h3 : (history_tail w).lines = w.lines := rfl
  have h4 : (clamp_line w).line_no
      = (if (w.lines.length : Int) < w.line_no then (w.lines.length : Int) else w.line_no) := rfl
  have h1 : (history_tail w).line_no
      = (if (clamp_line w).line_no < 1 then 1 else (clamp_line w).line_no) := rfl
  have h5 : (clamp_col (clamp_line w)).col_no
      = (if curLineLen (clamp_line w) < w.col_no then curLineLen (clamp_line w)
         else w.col_no) := rfl
  have h2 : (history_tail w).col_no
      = (if (clamp_col (clamp_line w)).col_no < 1 then 1
         else (clamp_col (clamp_line w)).col_no) := rfl
  have h6 : 0 ≤ curLineLen (clamp_line w) := by
    simp only [curLineLen]
    exact Int.natCast_nonneg _
  have h7 : curLineLen (history_tail w) = curLineLen (clamp_line w) := by
    have hlines : (clamp_line w).lines = w.lines := rfl
    have hidx : ((history_tail w).line_no - 1).toNat
        = ((clamp_line w).line_no - 1).toNat := by
      rw [h1]
      split_ifs with hc
      · omega
      · rfl
    simp only [curLineLen, h3, hlines, hidx]
  refine ⟨?_, ?_, ?_, ?_⟩
  · rw [h1, h4]; split_ifs <;> omega
  · rw [h1, h4, h3]; split_ifs <;> omega
  · rw [h2]; split_ifs <;> omega
  · have hb : (history_tail w).col_no ≤ 1 ∨
        (history_tail w).col_no ≤ curLineLen (clamp_line w) := by
      rw [h2, h5]
      split_ifs <;> omega
    rcases hb with hb | hb
    · exact le_trans hb (le_max_left _ _)
    · rw [← h7] at hb
      exact le_trans hb (le_max_right _ _)

theorem set_history_break_cursor (t : EditorState) :
    (set_history_break t).col_no = t.col_no ∧
    (set_history_break t).line_no = t.line_no ∧
    (set_history_break t).lines = t.lines := by
  simp only [set_history_break]
  split_ifs <;> simp [hist_append]

theorem line_delete_lines_ne (s : EditorState) (offset lineno : Nat) (hne : s.lines ≠ []) :
    (line_delete s offset lineno).lines ≠ [] := by
  simp only [line_delete, modifyLine, hist_append]
  split_ifs <;> first | exact hne | exact set_ne_nil _ _ _ hne

theorem clear_line_go_lines_ne (offset : Nat) :
    ∀ (fuel : Nat) (s : EditorState), s.lines ≠ [] →
    (clear_line_go offset fuel s).lines ≠ []
  | 0, _, hne => hne
  | fuel + 1, s, hne => by
    simp only [clear_line_go]
    split_ifs with h
    · exact hne
    · exact clear_line_go_lines_ne offset fuel _ (line_delete_lines_ne s _ offset hne)

theorem redo_apply_lines_ne (s : EditorState) (r : HistoryRecord) (hne : s.lines ≠ [])
    (hr : rec_linesafe r) : (redo_apply s r).lines ≠ [] := by
  cases r with
  | insert lineno offset c =>
    simp only [redo_apply, line_insert, modifyLine, hist_append]
    split_ifs <;> exact set_ne_nil _ _ _ hne
  | delete lineno offset old =>
    exact line_delete_lines_ne s offset lineno hne
  | replace lineno offset c old =>
    simp only [redo_apply, line_replace, modifyLine, hist_append]
    split_ifs <;> exact set_ne_nil _ _ _ hne
  | add_line lineno =>
    simp only [redo_apply, add_line, hist_append]
    split_ifs <;> first | exact hne | exact insertIdx_ne_nil _ _ _ hne
  | remove_line lineno old =>
    have hlen0 : s.lines.length ≠ 0 := fun h => hne (List.eq_nil_of_length_eq_zero h)
    simp only [redo_apply, remove_line, hist_append]
    split_ifs with h1 h2
    · exact clear_line_go_lines_ne lineno _ s hne
    · exact eraseIdx_ne_nil _ _ (by show 2 ≤ s.lines.length; omega)
    · exact eraseIdx_ne_nil _ _ (by show 2 ≤ s.lines.length; omega)
  | replace_line lineno old contents =>
    simp only [redo_apply, replace_line, hist_append]
    split_ifs <;> exact set_ne_nil _ _ _ hne
  | split_line lineno split =>
    simp only [redo_apply, split_line, add_line, hist_append]
    split_ifs <;>
      first
        | exact hne
        | exact insertIdx_ne_nil _ _ _ hne
        | exact insertIdx_ne_nil _ _ _ (set_ne_nil _ _ _ hne)
  | merge_lines lineb split =>
    simp only [rec_linesafe] at hr
    have key : ∀ (L : List (List Nat)), L ≠ [] → L.eraseIdx lineb ≠ [] := by
      intro L h
      have hb : lineb = (lineb - 1) + 1 := by omega
      rw [hb]
      exact eraseIdx_succ_ne_nil L _ h
    simp only [redo_apply, merge_lines, hist_append]
    split_ifs <;> exact key _ (set_ne_nil _ _ _ hne)
  | brk => exact hne

theorem recAt_mem (s : EditorState) (i : Nat) (h : i < s.journal.length) :
    recAt s i ∈ jrecs s := by
  rw [recAt_jrecs]
  have hlt : i < (jrecs s).length := by rw [jrecs_len]; exact h
  rw [List.getD_eq_getElem _ _ hlt]
  exact List.getElem_mem hlt

theorem redo_walk_lines_ne : ∀ (fuel : Nat) (s : EditorState), s.loading = true →
    s.lines ≠ [] → (∀ r ∈ jrecs s, rec_linesafe r) →
    (redo_walk fuel s).lines ≠ []
  | 0, _, _, hne, _ => hne
  | fuel + 1, s, hld, hne, hsafe => by
    simp only [redo_walk]
    by_cases h0 : s.journal.length ≤ s.hpos
    · rw [if_pos h0]; exact hne
    · rw [if_neg h0]
      by_cases hb : recAt s s.hpos = HistoryRecord.brk
      · rw [if_pos hb]; exact hne
      · rw [if_neg hb]
        have hm := redo_apply_meta s (recAt s s.hpos) hld
        have hmem : recAt s s.hpos ∈ jrecs s := recAt_mem s s.hpos (by omega)
        have hne2 : ({ redo_apply s (recAt s s.hpos) with hpos := s.hpos + 1 } :
            EditorState).lines ≠ [] :=
          redo_apply_lines_ne s _ hne (hsafe _ hmem)
        refine redo_walk_lines_ne fuel _ hm.2.2.2.2 hne2 ?_
        intro r hrm
        refine hsafe r ?_
        have hj : ({ redo_apply s (recAt s s.hpos) with hpos := s.hpos + 1 } :
            EditorState).journal = s.journal := hm.1
        rw [jrecs_congr hj] at hrm
        exact hrm


/-- C4 (the operations embedded here): every embedded operation that
writes the cursor maintains its validity.  After any undo or redo that
runs on a nonempty buffer, the shared epilogue's clamps put the line
number inside the buffer and the column inside (or at column 1 of) the
current line — including when the walk shrank or emptied that line —
and `leave_insert` pulls a column that insert mode had left past the
end of the line back into the same range.  The cursor updates of the
remaining per-command dispatcher paths are not part of the embedded
fragment. -/
theorem C4_cursor_valid (s : EditorState) (hne : s.lines ≠ []) :
    (s.hpos ≠ 0 →
      1 ≤ (undo_history s).line_no ∧
      (undo_history s).line_no ≤ ((undo_history s).lines.length : Int) ∧
      1 ≤ (undo_history s).col_no ∧
      (undo_history s).col_no ≤ max 1 (curLineLen (undo_history s))) ∧
    (s.hpos < s.journal.length → (∀ r ∈ jrecs s, rec_linesafe r) →
      1 ≤ (redo_history s).line_no ∧
      (redo_history s).line_no ≤ ((redo_history s).lines.length : Int) ∧
      1 ≤ (redo_history s).col_no ∧
      (redo_history s).col_no ≤ max 1 (curLineLen (redo_history s))) ∧
    (1 ≤ s.col_no →
      1 ≤ (leave_insert s).col_no ∧
      (leave_insert s).col_no ≤ max 1 (curLineLen (leave_insert s))) := by
  refine ⟨?_, ?_, ?_⟩
  · intro h0
    have hwne : (undo_walk s.hpos { s with loading := true }).lines ≠ [] :=
      undo_walk_lines_ne s.hpos { s with loading := true } rfl hne
    have hu : undo_history s
        = history_tail (undo_walk s.hpos { s with loading := true }) := by
      rw [undo_history, if_neg h0]
    rw [hu]
    exact history_tail_cursor _ hwne
  · intro hlt hsafe
    have hwne : (redo_walk (s.journal.length - s.hpos)
        { s with loading := true }).lines ≠ [] :=
      redo_walk_lines_ne (s.journal.length - s.hpos) { s with loading := true }
        rfl hne hsafe
    have hr : redo_history s
        = history_tail (redo_walk (s.journal.length - s.hpos)
            { s with loading := true }) := by
      rw [redo_history, if_neg (by omega)]
    rw [hr]
    exact history_tail_cursor _ hwne
  · intro hc1
    have hsb := set_history_break_cursor (leave_insert_fix s)
    have hcol : (leave_insert s).col_no = (leave_insert_fix s).col_no := hsb.1
    have hcur : curLineLen (leave_insert s) = curLineLen (leave_insert_fix s) := by
      simp only [curLineLen]
      have e1 : (leave_insert s).lines = (leave_insert_fix s).lines := hsb.2.2
      have e2 : (leave_insert s).line_no = (leave_insert_fix s).line_no := hsb.2.1
      rw [e1, e2]
    have h6 : 0 ≤ curLineLen s := by
      simp only [curLineLen]
      exact Int.natCast_nonneg _
    have hcur2 : curLineLen (leave_insert_fix s) = curLineLen s := by
      simp only [leave_insert_fix]
      split_ifs <;> rfl
    have hfix : (leave_insert_fix s).col_no
        = (if curLineLen s < s.col_no then (if curLineLen s = 0 then 1 else curLineLen s)
           else s.col_no) := by
      simp only [leave_insert_fix]
      split_ifs <;> rfl
    rw [hcol, hcur, hcur2, hfix]
    split_ifs with ha hb
    · exact ⟨le_refl _, le_max_left _ _⟩
    · exact ⟨by omega, le_max_right _ _⟩
    · exact ⟨hc1, le_max_of_le_right (by omega)⟩

/-- Witness for C4: one insertion into a fresh buffer, then the three
clauses at that state. -/
theorem C4_cursor_valid_witness :
    ((apply_op init_state (EditOp.ins 0 0 97)).hpos ≠ 0 →
      1 ≤ (undo_history (apply_op init_state (EditOp.ins 0 0 97))).line_no ∧
      (undo_history (apply_op init_state (EditOp.ins 0 0 97))).line_no
        ≤ ((undo_history (apply_op init_state (EditOp.ins 0 0 97))).lines.length : Int) ∧
      1 ≤ (undo_history (apply_op init_state (EditOp.ins 0 0 97))).col_no ∧
      (undo_history (apply_op init_state (EditOp.ins 0 0 97))).col_no
        ≤ max 1 (curLineLen (undo_history (apply_op init_state (EditOp.ins 0 0 97))))) ∧
    ((apply_op init_state (EditOp.ins 0 0 97)).hpos
        < (apply_op init_state (EditOp.ins 0 0 97)).journal.length →
      (∀ r ∈ jrecs (apply_op init_state (EditOp.ins 0 0 97)), rec_linesafe r) →
      1 ≤ (redo_history (apply_op init_state (EditOp.ins 0 0 97))).line_no ∧
      (redo_history (apply_op init_state (EditOp.ins 0 0 97))).line_no
        ≤ ((redo_history (apply_op init_state (EditOp.ins 0 0 97))).lines.length : Int) ∧
      1 ≤ (redo_history (apply_op init_state (EditOp.ins 0 0 97))).col_no ∧
      (redo_history (apply_op init_state (EditOp.ins 0 0 97))).col_no
        ≤ max 1 (curLineLen (redo_history (apply_op init_state (EditOp.ins 0 0 97))))) ∧
    (1 ≤ (apply_op init_state (EditOp.ins 0 0 97)).col_no →
      1 ≤ (leave_insert (apply_op init_state (EditOp.ins 0 0 97))).col_no ∧
      (leave_insert (apply_op init_state (EditOp.ins 0 0 97))).col_no
        ≤ max 1 (curLineLen (leave_insert (apply_op init_state (EditOp.ins 0 0 97))))) :=
  C4_cursor_valid (apply_op init_state (EditOp.ins 0 0 97)) (by decide)

/-! ## Theorems: search_next finds the first match and wraps (C7) -/

theorem search_matches_zero (c ic : Nat) (hc : c ≠ 0) : search_matches c 0 ic = false := by
  have ht : tolower c ≠ 0 := by
    simp only [tolower]
    split_ifs with h
    · omega
    · exact hc
  simp only [search_matches]
  split_ifs with h1 h2
  · simp [hc]
  · have h0 : tolower 0 = 0 := rfl
    rw [h0]
    simp [ht]
  · rfl

theorem inner_match_iff (line : List Nat) (ic : Nat) :
    ∀ (needle : List Nat), (∀ c ∈ needle, c ≠ 0) → ∀ j : Int,
    (inner_match line ic needle j = true ↔
      j + (needle.length : Int) ≤ (line.length : Int) ∧
      (needle = [] ∨ 0 ≤ j) ∧
      ∀ t, t < needle.length →
        search_matches (needle.getD t 0) (line.getD (j.toNat + t) 0) ic = true)
  | [], _, j => by
    simp only [inner_match, decide_eq_true_eq, List.length_nil]
    constructor
    · intro h
      exact ⟨by omega, Or.inl trivial, fun t ht => absurd ht (by omega)⟩
    · rintro ⟨h1, _, _⟩
      omega
  | c :: rest, h0, j => by
    have hc : c ≠ 0 := h0 c (List.mem_cons_self c rest)
    have h0r : ∀ x ∈ rest, x ≠ 0 := fun x hx => h0 x (List.mem_cons_of_mem c hx)
    have ih := inner_match_iff line ic rest h0r (j + 1)
    simp only [inner_match, Bool.and_eq_true, decide_eq_true_eq, List.length_cons]
    constructor
    · rintro ⟨hb, hm, hr⟩
      have hcell : 0 ≤ j ∧ j < (line.length : Int) := by
        by_contra hcon
        have hz : cellAt line j = 0 := by
          simp only [cellAt]
          rw [if_neg hcon]
        rw [hz, search_matches_zero c ic hc] at hm
        exact Bool.false_ne_true hm
      have hcell2 : cellAt line j = line.getD j.toNat 0 := by
        simp only [cellAt]
        rw [if_pos hcell]
      obtain ⟨ih1, _, ih3⟩ := ih.mp hr
      refine ⟨by omega, Or.inr hcell.1, ?_⟩
      intro t ht
      cases t with
      | zero =>
        rw [hcell2] at hm
        simpa using hm
      | succ u =>
        have hu : u < rest.length := by omega
        have h2 := ih3 u hu
        have hidx : (j + 1).toNat + u = j.toNat + (u + 1) := by omega
        rw [hidx] at h2
        simpa using h2
    · rintro ⟨h1, h2, h3⟩
      have hj0 : 0 ≤ j := by
        rcases h2 with h2 | h2
        · exact absurd h2 (by simp)
        · exact h2
      have hjlen : j < (line.length : Int) := by omega
      have hcell2 : cellAt line j = line.getD j.toNat 0 := by
        simp only [cellAt]
        rw [if_pos ⟨hj0, hjlen⟩]
      refine ⟨by omega, ?_, ?_⟩
      · have h4 := h3 0 (by omega)
        rw [hcell2]
        simpa using h4
      · refine ih.mpr ⟨by omega, Or.inr (by omega), ?_⟩
        intro t ht
        have h4 := h3 (t + 1) (by omega)
        have hidx : j.toNat + (t + 1) = (j + 1).toNat + t := by omega
        rw [hidx] at h4
        simpa using h4

theorem match_liveb_iff (line : List Nat) (ic : Nat) (needle : List Nat) (j : Int) :
    match_liveb line ic needle j = true ↔
      0 ≤ j ∧ j + (needle.length : Int) ≤ (line.length : Int) ∧
      ∀ t, t < needle.length →
        search_matches (needle.getD t 0) (line.getD (j.toNat + t) 0) ic = true := by
  simp only [match_liveb, Bool.and_eq_true, decide_eq_true_eq, List.all_eq_true]
  constructor
  · rintro ⟨⟨ha, hb⟩, hall⟩
    exact ⟨ha, hb, fun t ht => hall t (List.mem_range.mpr ht)⟩
  · rintro ⟨ha, hb, hall⟩
    exact ⟨⟨ha, hb⟩, fun t htm => hall t (List.mem_range.mp htm)⟩

theorem inner_eq_live (line : List Nat) (ic : Nat) (needle : List Nat)
    (h0 : ∀ c ∈ needle, c ≠ 0) (hne : needle ≠ []) (j : Int) :
    inner_match line ic needle j = match_liveb line ic needle j := by
  have h1 := inner_match_iff line ic needle h0 j
  have h2 := match_liveb_iff line ic needle j
  refine Bool.eq_iff_iff.mpr ?_
  rw [h1, h2]
  constructor
  · rintro ⟨a, b, c⟩
    rcases b with b | b
    · exact absurd b hne
    · exact ⟨b, a, c⟩
  · rintro ⟨a, b, c⟩
    exact ⟨b, Or.inr a, c⟩

theorem find_in_line_some (line : List Nat) (ic : Nat) (needle : List Nat) :
    ∀ (fuel : Nat) (j0 c : Int),
    find_in_line line ic needle fuel j0 = some c →
    ∃ j, c = j + 1 ∧ j0 ≤ j ∧ j < (line.length : Int) + 1 ∧
      inner_match line ic needle j = true ∧
      ∀ j', j0 ≤ j' → j' < j → inner_match line ic needle j' = false
  | 0, j0, c, h => absurd h (by simp [find_in_line])
  | fuel + 1, j0, c, h => by
    simp only [find_in_line] at h
    by_cases hb : j0 < (line.length : Int) + 1
    · rw [if_pos hb] at h
      by_cases hm : inner_match line ic needle j0 = true
      · rw [if_pos hm] at h
        refine ⟨j0, (Option.some_inj.mp h).symm, le_refl _, hb, hm, ?_⟩
        intro j' h1 h2
        omega
      · rw [if_neg hm] at h
        obtain ⟨j, e1, e2, e3, e4, e5⟩ := find_in_line_some line ic needle fuel (j0 + 1) c h
        refine ⟨j, e1, by omega, e3, e4, ?_⟩
        intro j' h1 h2
        by_cases he : j' = j0
        · rw [he]
          exact Bool.not_eq_true _ |>.mp hm
        · exact e5 j' (by omega) h2
    · rw [if_neg hb] at h
      exact absurd h (by simp)

theorem find_in_line_none (line : List Nat) (ic : Nat) (needle : List Nat) :
    ∀ (fuel : Nat) (j0 : Int),
    (((line.length : Int) + 1 - j0).toNat ≤ fuel) →
    find_in_line line ic needle fuel j0 = none →
    ∀ j, j0 ≤ j → j < (line.length : Int) + 1 → inner_match line ic needle j = false
  | 0, j0, hfuel, _, j, h1, h2 => absurd hfuel (by omega)
  | fuel + 1, j0, hfuel, h, j, h1, h2 => by
    simp only [find_in_line] at h
    by_cases hb : j0 < (line.length : Int) + 1
    · rw [if_pos hb] at h
      by_cases hm : inner_match line ic needle j0 = true
      · rw [if_pos hm] at h
        exact absurd h (by simp)
      · rw [if_neg hm] at h
        by_cases he : j = j0
        · rw [he]
          exact Bool.not_eq_true _ |>.mp hm
        · exact find_in_line_none line ic needle fuel (j0 + 1) (by omega) h j (by omega) h2
    · omega

theorem find_match_go_some (lines : List (List Nat)) (ic : Nat) (needle : List Nat) :
    ∀ (fuel : Nat) (i0 col0 l c : Int),
    find_match_go lines ic needle fuel i0 col0 = some (l, c) →
    i0 ≤ l ∧ l ≤ (lines.length : Int) ∧
    ∃ j, c = j + 1 ∧ (if l = i0 then col0 - 1 else -1) ≤ j ∧
      j < ((lines.getD (l - 1).toNat []).length : Int) + 1 ∧
      inner_match (lines.getD (l - 1).toNat []) ic needle j = true ∧
      (∀ j', (if l = i0 then col0 - 1 else -1) ≤ j' → j' < j →
        inner_match (lines.getD (l - 1).toNat []) ic needle j' = false) ∧
      (∀ i j', i0 ≤ i → i < l → (if i = i0 then col0 - 1 else -1) ≤ j' →
        j' < ((lines.getD (i - 1).toNat []).length : Int) + 1 →
        inner_match (lines.getD (i - 1).toNat []) ic needle j' = false)
  | 0, i0, col0, l, c, h => absurd h (by simp [find_match_go])
  | fuel + 1, i0, col0, l, c, h => by
    simp only [find_match_go] at h
    by_cases hi : i0 ≤ (lines.length : Int)
    · rw [if_pos hi] at h
      cases hfl : find_in_line (lines.getD (i0 - 1).toNat []) ic needle
          ((((lines.getD (i0 - 1).toNat []).length : Int) + 1 - (col0 - 1)).toNat)
          (col0 - 1) with
      | some c0 =>
        rw [hfl] at h
        have h2 := Option.some_inj.mp h
        injection h2 with hl1 hl2
        subst hl1
        subst hl2
        obtain ⟨j, e1, e2, e3, e4, e5⟩ :=
          find_in_line_some _ ic needle _ _ _ hfl
        refine ⟨le_refl _, hi, j, e1, ?_, e3, e4, ?_, ?_⟩
        · rw [if_pos rfl]
          exact e2
        · intro j' h1 h2
          rw [if_pos rfl] at h1
          exact e5 j' h1 h2
        · intro i j' ha hb
          omega
      | none =>
        rw [hfl] at h
        obtain ⟨f1, f2, j, e1, e2, e3, e4, e5, e6⟩ :=
          find_match_go_some lines ic needle fuel (i0 + 1) 0 l c h
        have hlne : ¬ l = i0 := by omega
        refine ⟨by omega, f2, j, e1, ?_, e3, e4, ?_, ?_⟩
        · rw [if_neg hlne]
          have hs : (if l = i0 + 1 then (0 : Int) - 1 else -1) = -1 := by
            split_ifs <;> norm_num
          rw [hs] at e2
          exact e2
        · intro j' h1 h2
          rw [if_neg hlne] at h1
          refine e5 j' ?_ h2
          split_ifs <;> omega
        · intro i j' ha hb hc hd
          by_cases hei : i = i0
          · subst hei
            rw [if_pos rfl] at hc
            exact find_in_line_none _ ic needle _ _ (le_refl _) hfl j' hc hd
          · rw [if_neg hei] at hc
            refine e6 i j' (by omega) hb ?_ hd
            split_ifs <;> omega
    · rw [if_neg hi] at h
      exact absurd h (by simp)

theorem find_match_go_none (lines : List (List Nat)) (ic : Nat) (needle : List Nat) :
    ∀ (fuel : Nat) (i0 col0 : Int),
    (((lines.length : Int) + 1 - i0).toNat ≤ fuel) →
    find_match_go lines ic needle fuel i0 col0 = none →
    ∀ i j', i0 ≤ i → i ≤ (lines.length : Int) →
      (if i = i0 then col0 - 1 else -1) ≤ j' →
      j' < ((lines.getD (i - 1).toNat []).length : Int) + 1 →
      inner_match (lines.getD (i - 1).toNat []) ic needle j' = false
  | 0, i0, col0, hfuel, _, i, j', h1, h2, h3, h4 => absurd hfuel (by omega)
  | fuel + 1, i0, col0, hfuel, h, i, j', h1, h2, h3, h4 => by
    simp only [find_match_go] at h
    by_cases hi : i0 ≤ (lines.length : Int)
    · rw [if_pos hi] at h
      cases hfl : find_in_line (lines.getD (i0 - 1).toNat []) ic needle
          ((((lines.getD (i0 - 1).toNat []).length : Int) + 1 - (col0 - 1)).toNat)
          (col0 - 1) with
      | some c0 =>
        rw [hfl] at h
        exact absurd h (by simp)
      | none =>
        rw [hfl] at h
        by_cases hei : i = i0
        · subst hei
          rw [if_pos rfl] at h3
          exact find_in_line_none _ ic needle _ _ (le_refl _) hfl j' h3 h4
        · rw [if_neg hei] at h3
          refine find_match_go_none lines ic needle fuel (i0 + 1) 0 (by omega) h i j'
            (by omega) h2 ?_ h4
          split_ifs <;> omega
    · omega

/-- C7: `search_next` moves the cursor to the first live match in scan
order strictly past the cursor; when the scan to the end of the buffer
holds no live match it wraps around to the first match from `(1, 1)`;
two failures leave the state unchanged.  Junk cells never match because
the needle has no zero codepoint.  Concretely, in `foo bar foo` with
the cursor at column 9 and needle `foo`, `search_next` wraps to column
1. -/
theorem C7_search_next_first_match (cfg : Bool) (s : EditorState) (needle : List Nat)
    (hne : needle ≠ []) (h0 : ∀ c ∈ needle, c ≠ 0) :
    search_next_spec cfg s needle ∧
    search_next true c7State [102, 111, 111] = { c7State with line_no := 1, col_no := 1 } := by
  constructor
  · refine ⟨?_, ?_⟩
    · intro l c hf
      constructor
      · simp only [search_next, hf]
      · obtain ⟨f1, f2, j, e1, e2, e3, e4, e5, e6⟩ :=
          find_match_go_some s.lines (smart_case cfg needle) needle _ _ _ _ _ hf
        refine ⟨f1, f2, j, e1, e2, ?_, ?_, ?_⟩
        · rw [← inner_eq_live _ _ _ h0 hne]
          exact e4
        · intro j' ha hb
          rw [← inner_eq_live _ _ _ h0 hne]
          exact e5 j' ha hb
        · intro i j' ha hb hc
          rw [← inner_eq_live _ _ _ h0 hne]
          by_cases hd : j' < ((s.lines.getD (i - 1).toNat []).length : Int) + 1
          · exact e6 i j' ha hb hc hd
          · have hl : inner_match (s.lines.getD (i - 1).toNat [])
                (smart_case cfg needle) needle j' = match_liveb _ _ _ _ :=
              inner_eq_live _ _ _ h0 hne j'
            rw [inner_eq_live _ _ _ h0 hne]
            by_contra hcon
            have htr : match_liveb (s.lines.getD (i - 1).toNat [])
                (smart_case cfg needle) needle j' = true := by
              cases hq : match_liveb (s.lines.getD (i - 1).toNat [])
                  (smart_case cfg needle) needle j'
              · exact absurd hq hcon
              · rfl
            obtain ⟨q1, q2, _⟩ := (match_liveb_iff _ _ _ _).mp htr
            have hlen : 1 ≤ (needle.length : Int) := by
              cases needle with
              | nil => exact absurd rfl hne
              | cons a t => simp only [List.length_cons]; omega
            omega
    · intro hnone
      refine ⟨?_, ?_, ?_⟩
      · intro l c hf
        constructor
        · simp only [search_next, hnone, hf]
        · obtain ⟨f1, f2, j, e1, e2, e3, e4, e5, e6⟩ :=
            find_match_go_some s.lines (smart_case cfg needle) needle _ _ _ _ _ hf
          refine ⟨f1, f2, j, e1, e2, ?_, ?_, ?_⟩
          · rw [← inner_eq_live _ _ _ h0 hne]
            exact e4
          · intro j' ha hb
            rw [← inner_eq_live _ _ _ h0 hne]
            exact e5 j' ha hb
          · intro i j' ha hb hc
            by_cases hd : j' < ((s.lines.getD (i - 1).toNat []).length : Int) + 1
            · rw [← inner_eq_live _ _ _ h0 hne]
              exact e6 i j' ha hb hc hd
            · by_contra hcon
              have htr : match_liveb (s.lines.getD (i - 1).toNat [])
                  (smart_case cfg needle) needle j' = true := by
                cases hq : match_liveb (s.lines.getD (i - 1).toNat [])
                    (smart_case cfg needle) needle j'
                · exact absurd hq hcon
                · rfl
              obtain ⟨q1, q2, _⟩ := (match_liveb_iff _ _ _ _).mp htr
              have hlen : 1 ≤ (needle.length : Int) := by
                cases needle with
                | nil => exact absurd rfl hne
                | cons a t => simp only [List.length_cons]; omega
              omega
      · intro i j' ha hb hc
        by_cases hd : j' < ((s.lines.getD (i - 1).toNat []).length : Int) + 1
        · rw [← inner_eq_live _ _ _ h0 hne]
          have hstart : (if i = s.line_no then s.col_no + 1 - 1 else -1) ≤ j' := by
            split_ifs with he
            · rw [if_pos he] at hc
              omega
            · rw [if_neg he] at hc
              exact hc
          exact find_match_go_none s.lines (smart_case cfg needle) needle _ _ _
            (le_refl _) hnone i j' ha hb hstart hd
        · by_contra hcon
          have htr : match_liveb (s.lines.getD (i - 1).toNat [])
              (smart_case cfg needle) needle j' = true := by
            cases hq : match_liveb (s.lines.getD (i - 1).toNat [])
                (smart_case cfg needle) needle j'
            · exact absurd hq hcon
            · rfl
          obtain ⟨q1, q2, _⟩ := (match_liveb_iff _ _ _ _).mp htr
          have hlen : 1 ≤ (needle.length : Int) := by
            cases needle with
            | nil => exact absurd rfl hne
            | cons a t => simp only [List.length_cons]; omega
          omega
      · intro hnone2
        simp only [search_next, hnone, hnone2]
  · decide

/-- Witness for C7 at the spec's own example. -/
theorem C7_search_next_first_match_witness :
    search_next_spec true c7State [102, 111, 111] ∧
    search_next true c7State [102, 111, 111] = { c7State with line_no := 1, col_no := 1 } :=
  C7_search_next_first_match true c7State [102, 111, 111] (by decide) (by decide)

/-! ## Theorems: find_match reads outside the live cells (C10) -/

/-- C10 is refuted: searching the one-line buffer `x` for `y` from
`(1, 1)`, `find_match` reads `line->text[1]` on line 1 — index
`actual`, one past the live range (the loop bounds are
`k < actual + 1`, not `k < actual`).  The claim that every read
satisfies `0 ≤ k < actual` is therefore false. -/
theorem C10_find_match_oob_read :
    ((1 : Int), (1 : Int)) ∈ find_match_reads true [[120]] [121] 1 1 ∧
    ¬ ((1 : Int) < ((([[120]] : List (List Nat)).getD 0 []).length : Int)) := by
  decide

/-! ## Theorems: the bracket matcher (C8) -/

theorem paren_inner_spec (lines : List (List PCell)) (flags start pm : Nat) (dir : Int)
    (li : Int) (rest : List (Int × Int)) :
    ∀ (fuel : Nat) (col count : Int),
    spec_scan lines flags start pm
        (((scan_cols ((lines.getD (li - 1).toNat []).length : Int) dir fuel col).map
          (fun c => (li, c))) ++ rest) count
      = (match paren_inner (lines.getD (li - 1).toNat []) flags start pm dir fuel col count with
         | (some c, _) => some (li, c)
         | (none, count1) => spec_scan lines flags start pm rest count1)
  | 0, col, count => by
    simp only [scan_cols, List.map_nil, List.nil_append, paren_inner]
  | fuel + 1, col, count => by
    by_cases hin : 0 < col ∧ col < ((lines.getD (li - 1).toNat []).length : Int) + 1
    · simp only [scan_cols, if_pos hin, List.map_cons, List.cons_append, spec_scan,
        paren_inner]
      by_cases hfl : ((lines.getD (li - 1).toNat []).getD (col - 1).toNat ⟨0, 0⟩).flags % 16
          = flags
      · rw [if_pos hfl, if_pos hfl]
        by_cases hpm : ((lines.getD (li - 1).toNat []).getD (col - 1).toNat ⟨0, 0⟩).codepoint
            = pm
        · rw [if_pos hpm, if_pos hpm]
          by_cases hz : (if ((lines.getD (li - 1).toNat []).getD
              (col - 1).toNat ⟨0, 0⟩).codepoint = start then count + 1 else count) - 1 = 0
          · rw [if_pos hz, if_pos hz]
          · rw [if_neg hz, if_neg hz]
            exact paren_inner_spec lines flags start pm dir li rest fuel (col + dir) _
        · rw [if_neg hpm, if_neg hpm]
          exact paren_inner_spec lines flags start pm dir li rest fuel (col + dir) _
      · rw [if_neg hfl, if_neg hfl]
        exact paren_inner_spec lines flags start pm dir li rest fuel (col + dir) count
    · simp only [scan_cols, if_neg hin, List.map_nil, List.nil_append, paren_inner]

theorem paren_outer_spec (lines : List (List PCell)) (flags start pm : Nat) (dir : Int) :
    ∀ (fuel : Nat) (line col count : Int),
    paren_outer lines flags start pm dir fuel line col count
      = spec_scan lines flags start pm (scan_positions lines dir fuel line col) count
  | 0, line, col, count => by
    simp only [paren_outer, scan_positions, spec_scan]
  | fuel + 1, line, col, count => by
    simp only [paren_outer, scan_positions]
    rw [paren_inner_spec lines flags start pm dir line
      (if line + dir = 0 ∨ line + dir = (lines.length : Int) + 1 then []
       else
        scan_positions lines dir fuel (line + dir)
          (if 0 < dir then 1
           else ((lines.getD (line + dir - 1).toNat []).length : Int)))
      ((((lines.getD (line - 1).toNat []).length : Int) + 2).toNat) col count]
    cases hres : paren_inner (lines.getD (line - 1).toNat []) flags start pm dir
        ((((lines.getD (line - 1).toNat []).length : Int) + 2).toNat) col count with
    | mk found count1 =>
      cases found with
      | some c => rfl
      | none =>
        simp only []
        by_cases hb : line + dir = 0 ∨ line + dir = (lines.length : Int) + 1
        · rw [if_pos hb, if_pos hb]
          rfl
        · rw [if_neg hb, if_neg hb]
          exact paren_outer_spec lines flags start pm dir fuel (line + dir) _ count1

/-- C8: the bracket matcher equals its declarative description — scan
the visited cells in the direction the table implies, skip cells of a
different syntax-class nibble, count up on the start bracket and down
on its partner, report where the counter reaches zero, and report
nothing once the scan leaves the buffer.  The table sends each opening
bracket forward to its closer and each closing bracket backward to its
opener; the two concrete scans show a cross-line match and a
boundary miss. -/
theorem C8_find_matching_paren (lines : List (List PCell)) (line_no col_no in_col : Int) :
    find_matching_paren lines line_no col_no in_col
      = find_matching_paren_spec lines line_no col_no in_col ∧
    (paren_lookup 40 = some (1, 41) ∧ paren_lookup 41 = some (-1, 40) ∧
     paren_lookup 91 = some (1, 93) ∧ paren_lookup 93 = some (-1, 91) ∧
     paren_lookup 123 = some (1, 125) ∧ paren_lookup 125 = some (-1, 123) ∧
     paren_lookup 60 = some (1, 62) ∧ paren_lookup 62 = some (-1, 60)) ∧
    find_matching_paren [[⟨123, 0⟩], [⟨125, 0⟩]] 1 1 1 = some (2, 1) ∧
    find_matching_paren [[⟨123, 0⟩]] 1 1 1 = none := by
  refine ⟨?_, by decide, by decide, by decide⟩
  simp only [find_matching_paren, find_matching_paren_spec]
  by_cases hg : ((lines.getD (line_no - 1).toNat []).length : Int) < col_no - in_col + 1
  · rw [if_pos hg, if_pos hg]
  · rw [if_neg hg, if_neg hg]
    cases hlk : paren_lookup
        ((lines.getD (line_no - 1).toNat []).getD (col_no - in_col).toNat ⟨0, 0⟩).codepoint with
    | none => rfl
    | some dp =>
      cases dp with
      | mk dir pm =>
        simp only []
        exact paren_outer_spec lines _ _ pm dir (lines.length + 1) line_no
          (col_no - in_col + 1) 0

end Bim
